import Mathlib

/-!
# Verification of the yaml-xml-json-converter specification

This file shallowly embeds the converter's core (the XML adapter's
`_element_to_dict` / `_dict_to_element`, the JSON/YAML adapters' load
normalization and sorted-key save, and the conversion driver's format
detection and error propagation) as Lean definitions, and proves or
refutes the specification's claims about them.

Python values reachable in this program are modelled by `Node`
(str / int / bool / None / list / dict with insertion-ordered entries);
`xml.etree` elements by `Element` (tag, ordered attributes, optional
direct text, ordered children).
-/

/-- A Python value as handled by the converter: strings, integers,
booleans, `None`, lists, and insertion-ordered dictionaries. -/
inductive Node where
  | str  : String → Node
  | int  : Int → Node
  | bool : Bool → Node
  | null : Node
  | list : List Node → Node
  | dict : List (String × Node) → Node

/-- An `xml.etree.ElementTree.Element`: tag, attributes in insertion
order, optional direct text, and child elements in document order. -/
inductive Element where
  | mk (tag : String) (attrib : List (String × String))
       (text : Option String) (children : List Element)

def Element.tag : Element → String
  | .mk t _ _ _ => t

def Element.attrib : Element → List (String × String)
  | .mk _ a _ _ => a

def Element.text : Element → Option String
  | .mk _ _ t _ => t

def Element.children : Element → List Element
  | .mk _ _ _ c => c

def Node.isList : Node → Bool
  | .list _ => true
  | _ => false

def Node.isDict : Node → Bool
  | .dict _ => true
  | _ => false

def Node.isStr : Node → Bool
  | .str _ => true
  | _ => false

/-- ASCII whitespace, the characters Python's `str.strip()` removes
from the documents this converter handles. -/
def isPySpace (c : Char) : Bool :=
  c = ' ' || c = '\t' || c = '\n' || c = '\r'

/-- Python `str.strip()`: drop leading and trailing whitespace. -/
def pyStrip (s : String) : String :=
  ⟨((s.data.dropWhile isPySpace).reverse.dropWhile isPySpace).reverse⟩

/-- Python `str.lower()` over the ASCII range. -/
def pyLower (s : String) : String :=
  ⟨s.data.map (fun c => if 'A' ≤ c && c ≤ 'Z' then Char.ofNat (c.toNat + 32) else c)⟩

/-- Python `str.upper()` over the ASCII range. -/
def pyUpper (s : String) : String :=
  ⟨s.data.map (fun c => if 'a' ≤ c && c ≤ 'z' then Char.ofNat (c.toNat - 32) else c)⟩

/-- `key.startswith('@')`. -/
def isAttrKey (k : String) : Bool :=
  match k.data with
  | c :: _ => c = '@'
  | [] => false

/-- `key[1:]`: the attribute name under an `@`-prefixed mapping key. -/
def attrName (k : String) : String :=
  ⟨k.data.drop 1⟩

/-- `'@' + name`: the mapping key for an attribute. -/
def mkAttrKey (a : String) : String :=
  ⟨'@' :: a.data⟩

/-- First-occurrence lookup in an insertion-ordered dictionary. -/
def lookupD (l : List (String × Node)) (k : String) : Option Node :=
  match l with
  | [] => none
  | (k2, v) :: rest => if k2 = k then some v else lookupD rest k

def containsKey (l : List (String × Node)) (k : String) : Bool :=
  (lookupD l k).isSome

/-- Replace the value at the first occurrence of `key`, keeping its
position (Python dict assignment to an existing key). -/
def updateD (l : List (String × Node)) (key : String) (newv : Node) :
    List (String × Node) :=
  match l with
  | [] => []
  | (k, v) :: rest =>
    if k = key then (k, newv) :: rest else (k, v) :: updateD rest key newv

/-- Python `result.update(m)`: for each entry of `m` in order, overwrite
in place if the key exists, else append. -/
def dictUpdate (result : List (String × Node)) :
    List (String × Node) → List (String × Node)
  | [] => result
  | (k, v) :: rest =>
    dictUpdate (if containsKey result k then updateD result k v
                else result ++ [(k, v)]) rest

/-!
`pyStr` / `pyRepr`: Python `str()` / `repr()` of a `Node` (string
`repr` approximated with plain single quotes; this converter never
feeds quoted strings back through `repr`).
-/
mutual

def pyStr : Node → String
  | .str s => s
  | .int n => toString n
  | .bool b => if b then "True" else "False"
  | .null => "None"
  | .list l => "[" ++ String.intercalate ", " (pyReprL l) ++ "]"
  | .dict l => "\x7b" ++ String.intercalate ", " (pyReprD l) ++ "\x7d"

def pyRepr : Node → String
  | .str s => "'" ++ s ++ "'"
  | .int n => toString n
  | .bool b => if b then "True" else "False"
  | .null => "None"
  | .list l => "[" ++ String.intercalate ", " (pyReprL l) ++ "]"
  | .dict l => "\x7b" ++ String.intercalate ", " (pyReprD l) ++ "\x7d"

def pyReprL : List Node → List String
  | [] => []
  | x :: xs => pyRepr x :: pyReprL xs

def pyReprD : List (String × Node) → List String
  | [] => []
  | (k, v) :: xs => ("'" ++ k ++ "': " ++ pyRepr v) :: pyReprD xs

end

/-!
`pyEq`: Python `==` on `Node`s: dictionaries compare as unordered
key/value sets, `True == 1` and `False == 0`, lists compare pointwise.
-/
mutual

def pyEq : Node → Node → Bool
  | .str a, .str b => a = b
  | .int a, .int b => a = b
  | .int a, .bool b => a = (if b then (1 : Int) else 0)
  | .bool a, .int b => (if a then (1 : Int) else 0) = b
  | .bool a, .bool b => a = b
  | .null, .null => true
  | .list a, .list b => pyEqL a b
  | .dict a, .dict b => a.length = b.length && pyEqD a b
  | _, _ => false

def pyEqL : List Node → List Node → Bool
  | [], [] => true
  | x :: xs, y :: ys => pyEq x y && pyEqL xs ys
  | _, _ => false

def pyEqD : List (String × Node) → List (String × Node) → Bool
  | [], _ => true
  | (k, v) :: xs, ys =>
    (match lookupD ys k with
     | some w => pyEq v w
     | none => false) && pyEqD xs ys

end

/-!
## XML adapter: `_dict_to_element`

`XMLParser._dict_to_element(tag, data)` builds an element with `tag`;
for a dict it walks the entries in order, turning `@`-keys into
attributes, `#text` into pending text (last one wins, set only if
non-empty), list values into one child per item tagged with the key,
and other values into a single recursive child; for a list it emits
`item{i}`-tagged children; otherwise the stringified value becomes the
element's text.
-/
mutual

def dict_to_element (tag : String) : Node → Element
  | .dict entries =>
    let acc := dtePairs entries
    let text := match acc.2.1 with
      | some s => if s = "" then none else some s
      | none => none
    .mk tag acc.1 text acc.2.2
  | .list items => .mk tag [] none (dteItems 0 items)
  | v => .mk tag [] (some (pyStr v)) []

/-- One pass over a dict's entries: accumulated attributes, pending
`#text` content (the last `#text` entry wins), and children. -/
def dtePairs : List (String × Node) →
    List (String × String) × Option String × List Element
  | [] => ([], none, [])
  | (key, value) :: rest =>
    let acc := dtePairs rest
    if isAttrKey key then
      ((attrName key, pyStr value) :: acc.1, acc.2.1, acc.2.2)
    else if key = "#text" then
      (acc.1, (match acc.2.1 with
               | some t => some t
               | none => some (pyStr value)), acc.2.2)
    else
      match value with
      | .list items =>
        (acc.1, acc.2.1, dteList key items ++ acc.2.2)
      | v => (acc.1, acc.2.1, dict_to_element key v :: acc.2.2)

def dteList (key : String) : List Node → List Element
  | [] => []
  | item :: rest => dict_to_element key item :: dteList key rest

def dteItems (i : Nat) : List Node → List Element
  | [] => []
  | item :: rest =>
    dict_to_element ("item" ++ toString i) item :: dteItems (i + 1) rest

end

/-!
## XML adapter: `_element_to_dict`

`XMLParser._element_to_dict(element)`: attributes become `@`-prefixed
entries; stripped non-empty text becomes a bare scalar when the element
has no attributes and no children, otherwise a `#text` entry; children
are grouped by tag, a repeated tag promoting the stored value to a list
and appending; a single non-reserved non-list entry is collapsed to its
value; an empty result becomes `None`.
-/

/-- Python's child-grouping step: insert one child node under its tag,
promoting an existing binding to a list. -/
def addChild (m : List (String × Node)) (tag : String) (data : Node) :
    List (String × Node) :=
  match lookupD m tag with
  | some existing =>
    (match existing with
     | .list l => updateD m tag (.list (l ++ [data]))
     | v => updateD m tag (.list [v, data]))
  | none => m ++ [(tag, data)]

mutual

def element_to_dict : Element → Node
  | .mk _ attrib text children =>
    let trimmed : Option String :=
      match text with
      | some s => if pyStrip s = "" then none else some (pyStrip s)
      | none => none
    match trimmed, children, attrib with
    | some s, [], [] => .str s
    | _, _, _ =>
      let result0 := attrib.map (fun p => (mkAttrKey p.1, Node.str p.2))
      let result1 := match trimmed with
        | some s => result0 ++ [("#text", Node.str s)]
        | none => result0
      let result2 := dictUpdate result1 (etdChildren children [])
      match result2 with
      | [] => .null
      | [(k, v)] =>
        if !isAttrKey k && k ≠ "#text" && attrib = [] && !v.isList
        then v else .dict [(k, v)]
      | _ => .dict result2

/-- The child-processing loop of `_element_to_dict`, accumulating the
`children` dictionary. -/
def etdChildren : List Element → List (String × Node) → List (String × Node)
  | [], acc => acc
  | c :: rest, acc => etdChildren rest (addChild acc c.tag (element_to_dict c))

end

/-- The mapping `_element_to_dict` builds in steps 2–4 (attributes,
`#text`, grouped children), before the collapse / empty-to-`None`
post-processing. -/
def etdCore (e : Element) : List (String × Node) :=
  let trimmed : Option String :=
    match e.text with
    | some s => if pyStrip s = "" then none else some (pyStrip s)
    | none => none
  let result0 := e.attrib.map (fun p => (mkAttrKey p.1, Node.str p.2))
  let result1 := match trimmed with
    | some s => result0 ++ [("#text", Node.str s)]
    | none => result0
  dictUpdate result1 (etdChildren e.children [])

/-- `XMLParser.load` after parsing: wrap the converted root element
under its tag (or under `"data"` when the tag is empty and the
conversion is not a dict). -/
def xmlLoad (root : Element) : Node :=
  let data := element_to_dict root
  if root.tag ≠ "" then .dict [(root.tag, data)]
  else match data with
    | .dict entries => .dict entries
    | d => .dict [("data", d)]

/-- `JSONParser.load` normalization of the decoded value: wrap a
non-dict under `{"data": ...}`. -/
def jsonLoad (decoded : Node) : Node :=
  match decoded with
  | .dict entries => .dict entries
  | v => .dict [("data", v)]

/-- `YAMLParser.load` normalization of the decoded value: wrap a
non-dict under `{"data": ...}`. -/
def yamlLoad (decoded : Node) : Node :=
  match decoded with
  | .dict entries => .dict entries
  | v => .dict [("data", v)]

/-!
## Canonicalization and save-side serializers

`JSONParser.save` writes `json.dump(data, indent=2, ensure_ascii=False,
sort_keys=True)`; `YAMLParser.save` writes `yaml.dump(data, indent=2,
allow_unicode=True, sort_keys=True, default_flow_style=False)`. Both
libraries are external collaborators; they are modelled here by first
recursively sorting every dictionary's entries by key (`sort_keys=True`)
and then rendering the canonical tree.
-/

/-- Comparator used by `sort_keys=True`: lexicographic order on keys. -/
def keyLe (a b : String × Node) : Bool := decide (a.1 ≤ b.1)

mutual

def canon : Node → Node
  | .str s => .str s
  | .int n => .int n
  | .bool b => .bool b
  | .null => .null
  | .list l => .list (canonL l)
  | .dict l => .dict ((canonD l).mergeSort keyLe)

def canonL : List Node → List Node
  | [] => []
  | x :: xs => canon x :: canonL xs

def canonD : List (String × Node) → List (String × Node)
  | [] => []
  | (k, v) :: xs => (k, canon v) :: canonD xs

end

def jsonEscChar (c : Char) : String :=
  if c = '"' then "\\\"" else if c = '\\' then "\\\\"
  else if c = '\n' then "\\n" else if c = '\t' then "\\t"
  else if c = '\r' then "\\r" else String.singleton c

/-- JSON string literal with the standard escapes. -/
def jsonStr (s : String) : String :=
  "\"" ++ String.join (s.data.map jsonEscChar) ++ "\""

/-- Indentation at nesting level `n` (two spaces per level). -/
def pad (n : Nat) : String := String.mk (List.replicate (2 * n) ' ')

/-!
`jsonRender`: the text `json.dump(..., indent=2, ensure_ascii=False)`
produces for an already key-sorted tree.
-/
mutual

def jsonRender (lvl : Nat) : Node → String
  | .str s => jsonStr s
  | .int n => toString n
  | .bool b => if b then "true" else "false"
  | .null => "null"
  | .list [] => "[]"
  | .list l =>
    "[\n" ++ String.intercalate ",\n" (jsonRenderL (lvl + 1) l) ++
      "\n" ++ pad lvl ++ "]"
  | .dict [] => "\x7b\x7d"
  | .dict l =>
    "\x7b\n" ++ String.intercalate ",\n" (jsonRenderD (lvl + 1) l) ++
      "\n" ++ pad lvl ++ "\x7d"

def jsonRenderL (lvl : Nat) : List Node → List String
  | [] => []
  | x :: xs => (pad lvl ++ jsonRender lvl x) :: jsonRenderL lvl xs

def jsonRenderD (lvl : Nat) : List (String × Node) → List String
  | [] => []
  | (k, v) :: xs =>
    (pad lvl ++ jsonStr k ++ ": " ++ jsonRender lvl v) :: jsonRenderD lvl xs

end

/-- The text `JSONParser.save` writes for `data`. -/
def jsonSaveText (data : Node) : String := jsonRender 0 (canon data)

/-- Plain YAML scalar text (containers handled by `yamlBlock`). -/
def yamlScalar : Node → String
  | .str s => s
  | .int n => toString n
  | .bool b => if b then "true" else "false"
  | .null => "null"
  | .list _ => ""
  | .dict _ => ""

def Node.isScalar : Node → Bool
  | .list _ => false
  | .dict _ => false
  | _ => true

/-!
`yamlDictLines` / `yamlListLines`: block-style YAML rendering of an
already key-sorted tree, modelling the documented block layout of
`yaml.dump(..., default_flow_style=False)` (mapping lines `key: value`,
nested blocks indented two spaces, sequence items introduced by `- `).
-/
mutual

def yamlValue (lvl : Nat) : Node → String
  | .dict [] => " \x7b\x7d\n"
  | .dict es => "\n" ++ yamlDictLines (lvl + 1) es
  | .list [] => " []\n"
  | .list xs => "\n" ++ yamlListLines lvl xs
  | v => " " ++ yamlScalar v ++ "\n"

def yamlDictLines (lvl : Nat) : List (String × Node) → String
  | [] => ""
  | (k, v) :: rest =>
    pad lvl ++ k ++ ":" ++ yamlValue lvl v ++ yamlDictLines lvl rest

def yamlListLines (lvl : Nat) : List Node → String
  | [] => ""
  | x :: rest =>
    (if x.isScalar then pad lvl ++ "- " ++ yamlScalar x ++ "\n"
     else pad lvl ++ "-" ++ yamlValue (lvl + 1) x) ++ yamlListLines lvl rest

end

/-- The text `YAMLParser.save` writes for `data`: key-sorted block
YAML, with the document-end marker a scalar root gets. -/
def yamlSaveText (data : Node) : String :=
  match canon data with
  | .dict [] => "\x7b\x7d\n"
  | .dict es => yamlDictLines 0 es
  | .list [] => "[]\n"
  | .list xs => yamlListLines 0 xs
  | v => yamlScalar v ++ "\n...\n"

/-!
## Conversion driver and error propagation
-/

/-- A raised Python exception, by class and message. -/
inductive PyError where
  | fileNotFound (msg : String)
  | valueError (msg : String)
  | permissionError (msg : String)

def PyError.msg : PyError → String
  | .fileNotFound m => m
  | .valueError m => m
  | .permissionError m => m

def PyError.isPermissionError : PyError → Bool
  | .permissionError _ => true
  | _ => false

/-- Outcome of the underlying file write inside an adapter's `save`. -/
inductive WriteOutcome where
  | ok
  | permissionDenied
  | typeError (msg : String)

/-- `JSONParser.save`'s error mapping around the underlying write. -/
def jsonSaveResult (path : String) (w : WriteOutcome) : Except PyError Unit :=
  match w with
  | .ok => .ok ()
  | .permissionDenied =>
    .error (.permissionError ("No permission to write file: " ++ path))
  | .typeError m =>
    .error (.valueError ("Data is not JSON serializable: " ++ m))

/-- `detect_input_format`: map the lowercased extension, defaulting to
`"unknown"`. -/
def detect_input_format (suffix : String) : String :=
  let ext := pyLower suffix
  if ext = ".json" then "json"
  else if ext = ".yaml" then "yaml"
  else if ext = ".yml" then "yaml"
  else if ext = ".xml" then "xml"
  else "unknown"

/-- `process_conversion`, abstracted over the outcomes of the load and
save phases: unknown input extension fails fast; a load error
propagates as raised; any error raised in the save phase is caught and
re-raised as `ValueError` with a conversion prefix. -/
def process_conversion (suffix : String) (outFmt : String)
    (loadOutcome : Except PyError Node)
    (saveOutcome : Node → Except PyError Unit) : Except PyError Unit :=
  let inFmt := detect_input_format suffix
  if inFmt = "unknown" then
    .error (.valueError ("Unsupported input file format: " ++ suffix))
  else
    match loadOutcome with
    | .error e => .error e
    | .ok data =>
      let wrap := fun (m : String) =>
        PyError.valueError ("Error processing " ++ pyUpper inFmt ++ " to " ++
          pyUpper outFmt ++ " conversion: " ++ m)
      if outFmt = "json" ∨ outFmt = "yaml" ∨ outFmt = "xml" then
        match saveOutcome data with
        | .ok () => .ok ()
        | .error e => .error (wrap e.msg)
      else
        .error (wrap ("TODO: " ++ pyUpper outFmt ++ " output not yet implemented"))

/-- `main`'s top-level handler: render any of the caught error classes
to stderr and exit 1, else exit 0. -/
def mainHandle (r : Except PyError Unit) : Nat × Option String :=
  match r with
  | .ok () => (0, none)
  | .error e => (1, some ("Error: " ++ e.msg))

/-!
## Basic dictionary lemmas
-/

theorem lookupD_append (l1 l2 : List (String × Node)) (k : String) :
    lookupD (l1 ++ l2) k =
      match lookupD l1 k with
      | some v => some v
      | none => lookupD l2 k := by
  induction l1 with
  | nil => simp [lookupD]
  | cons p rest ih =>
    obtain ⟨k2, v⟩ := p
    by_cases h : k2 = k <;> simp [lookupD, h, ih]

theorem containsKey_append (l1 l2 : List (String × Node)) (k : String) :
    containsKey (l1 ++ l2) k = (containsKey l1 k || containsKey l2 k) := by
  simp only [containsKey, lookupD_append]
  cases lookupD l1 k <;> simp

theorem lookupD_updateD_ne (l : List (String × Node)) (key k : String)
    (nv : Node) (h : k ≠ key) :
    lookupD (updateD l key nv) k = lookupD l k := by
  induction l with
  | nil => simp [updateD]
  | cons p rest ih =>
    obtain ⟨k2, v⟩ := p
    by_cases h2 : k2 = key <;> by_cases h3 : k2 = k
    · exact absurd (h3 ▸ h2) h
    · simp [updateD, lookupD, h2, h3, Ne.symm h]
    · simp [updateD, lookupD, h2, h3, h, ih]
    · simp [updateD, lookupD, h2, h3, ih]

theorem lookupD_updateD_self (l : List (String × Node)) (key : String)
    (nv : Node) (h : containsKey l key = true) :
    lookupD (updateD l key nv) key = some nv := by
  induction l with
  | nil => simp [containsKey, lookupD] at h
  | cons p rest ih =>
    obtain ⟨k2, v⟩ := p
    by_cases h2 : k2 = key
    · simp [updateD, lookupD, h2]
    · simp only [containsKey, lookupD, h2, if_false] at h
      simp [updateD, lookupD, h2, ih h]

theorem updateD_of_not_contains (l : List (String × Node)) (key : String)
    (nv : Node) (h : containsKey l key = false) : updateD l key nv = l := by
  induction l with
  | nil => simp [updateD]
  | cons p rest ih =>
    obtain ⟨k2, v⟩ := p
    by_cases h2 : k2 = key
    · simp [containsKey, lookupD, h2] at h
    · simp only [containsKey, lookupD, h2, if_false] at h
      simp [updateD, h2, ih h]

theorem map_fst_updateD (l : List (String × Node)) (key : String) (nv : Node) :
    (updateD l key nv).map Prod.fst = l.map Prod.fst := by
  induction l with
  | nil => simp [updateD]
  | cons p rest ih =>
    obtain ⟨k2, v⟩ := p
    by_cases h2 : k2 = key <;> simp [updateD, h2, ih]

theorem updateD_updateD (l : List (String × Node)) (k : String) (v w : Node) :
    updateD (updateD l k v) k w = updateD l k w := by
  induction l with
  | nil => simp [updateD]
  | cons p rest ih =>
    obtain ⟨k2, x⟩ := p
    by_cases h2 : k2 = k <;> simp [updateD, h2, ih]

theorem updateD_lookup_self (l : List (String × Node)) (k : String) (v : Node)
    (h : lookupD l k = some v) : updateD l k v = l := by
  induction l with
  | nil => simp [lookupD] at h
  | cons p rest ih =>
    obtain ⟨k2, x⟩ := p
    by_cases h2 : k2 = k
    · subst h2
      simp [lookupD] at h
      simp [updateD, h]
    · simp only [lookupD, h2, if_false] at h
      simp [updateD, h2, ih h]

theorem updateD_append_not_contains (acc : List (String × Node)) (k : String)
    (x v : Node) (h : containsKey acc k = false) :
    updateD (acc ++ [(k, x)]) k v = acc ++ [(k, v)] := by
  induction acc with
  | nil => simp [updateD]
  | cons p rest ih =>
    obtain ⟨k2, y⟩ := p
    by_cases h2 : k2 = k
    · simp [containsKey, lookupD, h2] at h
    · simp only [containsKey, lookupD, h2, if_false] at h
      simp [updateD, h2, ih h]

theorem dictUpdate_disjoint (m : List (String × Node)) :
    ∀ r, (m.map Prod.fst).Nodup → (∀ p ∈ m, containsKey r p.1 = false) →
      dictUpdate r m = r ++ m := by
  induction m with
  | nil => intro r _ _; simp [dictUpdate]
  | cons p rest ih =>
    intro r hnd hdis
    obtain ⟨k, v⟩ := p
    have hk : containsKey r k = false := hdis (k, v) (List.mem_cons_self _ _)
    have hnd' : (rest.map Prod.fst).Nodup := (List.nodup_cons.mp hnd).2
    have hkni : k ∉ rest.map Prod.fst := (List.nodup_cons.mp hnd).1
    have hdis' : ∀ p ∈ rest, containsKey (r ++ [(k, v)]) p.1 = false := by
      intro q hq
      have h1 : containsKey r q.1 = false := hdis q (List.mem_cons_of_mem _ hq)
      have h2 : q.1 ≠ k := by
        intro he
        exact hkni (he ▸ List.mem_map_of_mem Prod.fst hq)
      rw [containsKey_append, h1]
      simp [containsKey, lookupD, Ne.symm h2]
    have hstep : dictUpdate r ((k, v) :: rest) = dictUpdate (r ++ [(k, v)]) rest := by
      simp [dictUpdate, hk]
    rw [hstep, ih (r ++ [(k, v)]) hnd' hdis']
    simp

theorem etdChildren_append (cs1 cs2 : List Element) :
    ∀ acc, etdChildren (cs1 ++ cs2) acc = etdChildren cs2 (etdChildren cs1 acc) := by
  induction cs1 with
  | nil => intro acc; simp [etdChildren]
  | cons c rest ih => intro acc; simp [etdChildren, ih]

theorem lookupD_addChild_ne (m : List (String × Node)) (tag k : String)
    (d : Node) (h : k ≠ tag) :
    lookupD (addChild m tag d) k = lookupD m k := by
  unfold addChild
  cases hl : lookupD m tag with
  | none =>
    rw [lookupD_append]
    cases hm : lookupD m k <;> simp [lookupD, Ne.symm h]
  | some existing =>
    cases existing <;> simp [lookupD_updateD_ne _ _ _ _ h]

theorem map_fst_addChild (m : List (String × Node)) (tag : String) (d : Node) :
    (addChild m tag d).map Prod.fst =
      if containsKey m tag then m.map Prod.fst else m.map Prod.fst ++ [tag] := by
  unfold addChild
  cases hl : lookupD m tag with
  | none => simp [containsKey, hl]
  | some existing =>
    cases existing <;> simp [containsKey, hl, map_fst_updateD]

theorem containsKey_iff_mem (l : List (String × Node)) (k : String) :
    containsKey l k = true ↔ k ∈ l.map Prod.fst := by
  induction l with
  | nil => simp [containsKey, lookupD]
  | cons p rest ih =>
    obtain ⟨k2, v⟩ := p
    by_cases h : k2 = k
    · subst h; simp [containsKey, lookupD]
    · rw [show containsKey ((k2, v) :: rest) k = containsKey rest k from by
        simp [containsKey, lookupD, h]]
      simp only [List.map, List.mem_cons]
      constructor
      · intro hc; exact Or.inr (ih.mp hc)
      · rintro (h2 | h2)
        · exact absurd h2.symm h
        · exact ih.mpr h2

theorem lookupD_eq_none_iff (l : List (String × Node)) (k : String) :
    lookupD l k = none ↔ k ∉ l.map Prod.fst := by
  rw [← containsKey_iff_mem]
  simp [containsKey, Option.isSome_iff_ne_none]

theorem lookupD_dictUpdate (m : List (String × Node)) :
    ∀ r j, (m.map Prod.fst).Nodup →
      lookupD (dictUpdate r m) j =
        match lookupD m j with
        | some v => some v
        | none => lookupD r j := by
  induction m with
  | nil => intro r j _; simp [dictUpdate, lookupD]
  | cons p rest ih =>
    intro r j hnd
    obtain ⟨k, v⟩ := p
    have hnd' : (rest.map Prod.fst).Nodup := (List.nodup_cons.mp hnd).2
    have hkni : k ∉ rest.map Prod.fst := (List.nodup_cons.mp hnd).1
    have hstep : dictUpdate r ((k, v) :: rest) =
        dictUpdate (if containsKey r k then updateD r k v else r ++ [(k, v)]) rest := by
      simp [dictUpdate]
    rw [hstep, ih _ j hnd']
    by_cases hj : j = k
    · subst hj
      have hrest : lookupD rest j = none := (lookupD_eq_none_iff rest j).mpr hkni
      rw [hrest]
      by_cases hc : containsKey r j
      · simp [lookupD, hc, lookupD_updateD_self r j v hc]
      · simp only [Bool.not_eq_true] at hc
        simp [lookupD, hc, lookupD_append,
          (lookupD_eq_none_iff r j).mpr (fun hm => by simp [(containsKey_iff_mem r j).mpr hm] at hc)]
    · by_cases hc : containsKey r k <;>
        cases hrest : lookupD rest j <;>
          simp [lookupD, hj, Ne.symm hj, hc, hrest,
            lookupD_updateD_ne r k j v hj, lookupD_append] <;>
        cases lookupD r j <;> simp

theorem keys_nodup_etdChildren (cs : List Element) :
    ∀ acc, ((acc.map Prod.fst).Nodup) →
      ((etdChildren cs acc).map Prod.fst).Nodup := by
  induction cs with
  | nil => intro acc h; simpa [etdChildren] using h
  | cons c rest ih =>
    intro acc h
    simp only [etdChildren]
    apply ih
    rw [map_fst_addChild]
    by_cases hc : containsKey acc c.tag
    · simp [hc, h]
    · simp only [hc, if_false, Bool.false_eq_true]
      refine List.Nodup.append h (List.nodup_singleton _) ?_
      intro x hx hx2
      simp at hx2
      subst hx2
      exact (by simp [(containsKey_iff_mem acc c.tag).mpr hx] at hc)

theorem etd_not_list (e : Element) : (element_to_dict e).isList = false := by
  obtain ⟨t, a, tx, c⟩ := e
  simp only [element_to_dict]
  split
  · simp [Node.isList]
  · split
    · simp [Node.isList]
    · split
      · rename_i hcond
        simp only [Bool.and_eq_true, Bool.not_eq_true', decide_eq_true_eq] at hcond
        exact hcond.2
      · simp [Node.isList]
    · simp [Node.isList]

/-- How one tag's accumulated value grows as same-tag children are
folded in: nothing yet, a single node, then a promoted list. -/
def combine : Option Node → List Node → Option Node
  | cur, [] => cur
  | none, [x] => some x
  | none, xs => some (.list xs)
  | some (.list ws), xs => some (.list (ws ++ xs))
  | some w, xs => some (.list (w :: xs))

theorem lookupD_etdChildren (cs : List Element) :
    ∀ acc t, lookupD (etdChildren cs acc) t =
      combine (lookupD acc t)
        ((cs.filter (fun c => c.tag == t)).map element_to_dict) := by
  induction cs with
  | nil => intro acc t; simp [etdChildren, combine]
  | cons c rest ih =>
    intro acc t
    by_cases ht : c.tag = t
    · subst ht
      have hfil : ((c :: rest).filter (fun x => x.tag == c.tag)) =
          c :: rest.filter (fun x => x.tag == c.tag) := by
        simp [List.filter_cons]
      rw [hfil]
      simp only [etdChildren, List.map]
      rw [ih]
      have hnl : (element_to_dict c).isList = false := etd_not_list c
      unfold addChild
      cases hl : lookupD acc c.tag with
      | none =>
        have hlook : lookupD (acc ++ [(c.tag, element_to_dict c)]) c.tag =
            some (element_to_dict c) := by
          rw [lookupD_append, hl]
          simp [lookupD]
        rw [hlook]
        cases hrm : (rest.filter (fun x => x.tag == c.tag)).map element_to_dict with
        | nil => simp [combine]
        | cons y ys =>
          cases hd : element_to_dict c with
          | list l => simp [hd, Node.isList] at hnl
          | _ => simp [combine]
      | some existing =>
        have hck : containsKey acc c.tag = true := by simp [containsKey, hl]
        cases existing with
        | list ws =>
          rw [lookupD_updateD_self _ _ _ hck]
          cases hrm : (rest.filter (fun x => x.tag == c.tag)).map element_to_dict with
          | nil => simp [combine]
          | cons y ys => simp [combine]
        | str s =>
          rw [lookupD_updateD_self _ _ _ hck]
          cases hrm : (rest.filter (fun x => x.tag == c.tag)).map element_to_dict with
          | nil => simp [combine]
          | cons y ys => simp [combine]
        | int n =>
          rw [lookupD_updateD_self _ _ _ hck]
          cases hrm : (rest.filter (fun x => x.tag == c.tag)).map element_to_dict with
          | nil => simp [combine]
          | cons y ys => simp [combine]
        | bool b =>
          rw [lookupD_updateD_self _ _ _ hck]
          cases hrm : (rest.filter (fun x => x.tag == c.tag)).map element_to_dict with
          | nil => simp [combine]
          | cons y ys => simp [combine]
        | null =>
          rw [lookupD_updateD_self _ _ _ hck]
          cases hrm : (rest.filter (fun x => x.tag == c.tag)).map element_to_dict with
          | nil => simp [combine]
          | cons y ys => simp [combine]
        | dict d =>
          rw [lookupD_updateD_self _ _ _ hck]
          cases hrm : (rest.filter (fun x => x.tag == c.tag)).map element_to_dict with
          | nil => simp [combine]
          | cons y ys => simp [combine]
    · have hfil : ((c :: rest).filter (fun x => x.tag == t)) =
          rest.filter (fun x => x.tag == t) := by
        simp [List.filter_cons, ht]
      rw [hfil]
      simp only [etdChildren]
      rw [ih, lookupD_addChild_ne _ _ _ _ (Ne.symm ht)]

theorem mkAttrKey_inj (a b : String) (h : mkAttrKey a = mkAttrKey b) : a = b := by
  have hd := congrArg String.data h
  simp only [mkAttrKey, List.cons.injEq] at hd
  cases a; cases b
  exact congrArg String.mk hd.2

theorem mkAttrKey_ne_text (a : String) : mkAttrKey a ≠ "#text" := by
  intro h
  have hd := congrArg String.data h
  have ht : "#text".data = ['#', 't', 'e', 'x', 't'] := rfl
  rw [ht] at hd
  simp only [mkAttrKey, List.cons.injEq] at hd
  exact absurd hd.1 (by decide)

theorem isAttrKey_mkAttrKey (a : String) : isAttrKey (mkAttrKey a) = true := rfl

theorem lookupD_attr_map (attrib : List (String × String)) (a : String) (v : String)
    (hnd : (attrib.map Prod.fst).Nodup) (hmem : (a, v) ∈ attrib) :
    lookupD (attrib.map (fun p => (mkAttrKey p.1, Node.str p.2))) (mkAttrKey a) =
      some (.str v) := by
  induction attrib with
  | nil => simp at hmem
  | cons p rest ih =>
    obtain ⟨a2, v2⟩ := p
    rcases List.mem_cons.mp hmem with heq | hmem2
    · rw [Prod.mk.injEq] at heq
      obtain ⟨h1, h2⟩ := heq
      subst h1; subst h2
      simp [lookupD]
    · have ha : a2 ≠ a := by
        intro he
        subst he
        exact (List.nodup_cons.mp hnd).1 (List.mem_map.mpr ⟨(a2, v), hmem2, rfl⟩)
      have hk : mkAttrKey a2 ≠ mkAttrKey a := fun hc => ha (mkAttrKey_inj _ _ hc)
      simp only [List.map, lookupD, hk, if_false]
      exact ih (List.nodup_cons.mp hnd).2 hmem2

theorem lookupD_attr_map_text (attrib : List (String × String)) :
    lookupD (attrib.map (fun p => (mkAttrKey p.1, Node.str p.2))) "#text" = none := by
  induction attrib with
  | nil => simp [lookupD]
  | cons p rest ih =>
    simp only [List.map, lookupD, mkAttrKey_ne_text p.1, if_false]
    exact ih

/-- C2 general rule, C3 grouping, and C4 attribute/text placement all
speak about `etdCore`, the mapping `_element_to_dict` builds before
post-processing; this lemma connects `element_to_dict` back to it. -/
theorem element_to_dict_eq (t : String) (a : List (String × String))
    (tx : Option String) (c : List Element) :
    element_to_dict (.mk t a tx c) =
      match (match tx with
             | some s => if pyStrip s = "" then none else some (pyStrip s)
             | none => none), c, a with
      | some s, [], [] => Node.str s
      | _, _, _ =>
        match etdCore (.mk t a tx c) with
        | [] => Node.null
        | [(k, v)] =>
          if !isAttrKey k && decide (k ≠ "#text") && decide (a = []) && !v.isList
          then v else .dict [(k, v)]
        | _ => .dict (etdCore (.mk t a tx c)) := by
  simp only [element_to_dict, etdCore, Element.attrib, Element.text,
    Element.children]

theorem element_to_dict_collapse (e : Element) (k : String) (v : Node)
    (h : etdCore e = [(k, v)]) (hk1 : isAttrKey k = false) (hk2 : k ≠ "#text")
    (ha : e.attrib = []) (hv : v.isList = false) :
    element_to_dict e = v := by
  obtain ⟨t, a, tx, c⟩ := e
  simp only [Element.attrib] at ha
  subst ha
  rw [element_to_dict_eq]
  split
  · rename_i s heq hceq
    -- early-return case: no attributes, no children, non-blank text;
    -- then the core mapping is exactly the #text entry
    simp only [etdCore, Element.attrib, Element.text, Element.children, heq,
      etdChildren, dictUpdate, List.map, List.nil_append] at h
    have hk : "#text" = k := by
      have h1 := congrArg (fun l => List.head? l) h
      simp at h1
      exact h1.1
    exact absurd hk.symm hk2
  · rw [h]
    simp [hk1, hk2, hv]

/-- C2: loading `<a><b>5</b></a>` yields exactly the collapsed mapping
with key `"a"` bound to `"5"`; in general, when the element's built
mapping has exactly one entry that is neither an attribute key nor
`#text`, the element has no attributes, and the value is not a
sequence, `_element_to_dict` returns that value in place of the
mapping. -/
theorem claim_C2 :
    xmlLoad (.mk "a" [] none [.mk "b" [] (some "5") []]) =
      Node.dict [("a", Node.str "5")] ∧
    ∀ (e : Element) (k : String) (v : Node),
      etdCore e = [(k, v)] → isAttrKey k = false → k ≠ "#text" →
      e.attrib = [] → v.isList = false → element_to_dict e = v := by
  constructor
  · simp [xmlLoad, element_to_dict, etdChildren, addChild, lookupD, dictUpdate,
      containsKey, pyStrip, isPySpace, Element.tag, Element.attrib, Element.text,
      Element.children, mkAttrKey, isAttrKey, Node.isList]
  · exact element_to_dict_collapse

/-- Witness for C2's general collapse rule at a concrete element. -/
theorem claim_C2_witness :
    element_to_dict (.mk "x" [] none [.mk "y" [] (some "7") []]) =
      Node.str "7" :=
  claim_C2.2 (.mk "x" [] none [.mk "y" [] (some "7") []]) "y" (Node.str "7")
    (by simp [etdCore, Element.attrib, Element.text, Element.children,
          Element.tag, etdChildren, addChild, lookupD, containsKey, dictUpdate,
          element_to_dict, pyStrip, isPySpace])
    (by decide) (by decide) rfl rfl

/-- C3: repeated sibling tags group into one sequence under the shared
tag, in document order; three `<book>` siblings load as one list. -/
theorem claim_C3 :
    xmlLoad (.mk "library" [] none
        [.mk "book" [] (some "A") [], .mk "book" [] (some "B") [],
         .mk "book" [] (some "C") []]) =
      Node.dict [("library", Node.dict [("book",
        Node.list [Node.str "A", Node.str "B", Node.str "C"])])] ∧
    ∀ (e : Element) (t : String),
      2 ≤ (e.children.filter (fun c => c.tag == t)).length →
      lookupD (etdCore e) t =
        some (.list ((e.children.filter (fun c => c.tag == t)).map
          element_to_dict)) := by
  constructor
  · simp [xmlLoad, element_to_dict, etdChildren, addChild, lookupD, dictUpdate,
      containsKey, pyStrip, isPySpace, Element.tag, Element.attrib, Element.text,
      Element.children, mkAttrKey, isAttrKey, Node.isList]
  · intro e t hlen
    obtain ⟨tg, a, tx, c⟩ := e
    simp only [Element.children] at hlen ⊢
    have hnd : ((etdChildren c []).map Prod.fst).Nodup :=
      keys_nodup_etdChildren c [] (by simp)
    simp only [etdCore, Element.attrib, Element.text, Element.children]
    rw [lookupD_dictUpdate _ _ _ hnd, lookupD_etdChildren]
    rw [show lookupD [] t = none from rfl]
    cases hm : (List.filter (fun c => c.tag == t) c).map element_to_dict with
    | nil =>
      rw [List.map_eq_nil] at hm
      simp [hm] at hlen
    | cons x ys =>
      cases ys with
      | nil =>
        have := congrArg List.length hm
        simp at this
        omega
      | cons y ys2 => simp [combine]

/-- Witness for C3's grouping rule at a concrete two-child element. -/
theorem claim_C3_witness :
    lookupD
      (etdCore (.mk "r" [] none
        [.mk "i" [] (some "1") [], .mk "i" [] (some "2") []])) "i" =
      some (Node.list [Node.str "1", Node.str "2"]) := by
  have h := claim_C3.2
    (.mk "r" [] none [.mk "i" [] (some "1") [], .mk "i" [] (some "2") []]) "i"
    (by simp [Element.children, Element.tag, List.filter])
  rw [h]
  simp [Element.children, Element.tag, List.filter, element_to_dict,
    pyStrip, isPySpace]

/-- C4: `<price currency="USD">29.99</price>` loads with the attribute
under `"@currency"` and the text under `"#text"`; in general each
attribute `a=v` appears as `"@a" ↦ v` and non-blank direct text as
`"#text"` in the element's built mapping. -/
theorem claim_C4 :
    xmlLoad (.mk "price" [("currency", "USD")] (some "29.99") []) =
      Node.dict [("price", Node.dict
        [("@currency", Node.str "USD"), ("#text", Node.str "29.99")])] ∧
    (∀ (e : Element) (a v : String),
      (a, v) ∈ e.attrib → (e.attrib.map Prod.fst).Nodup →
      (∀ c ∈ e.children, c.tag ≠ mkAttrKey a) →
      lookupD (etdCore e) (mkAttrKey a) = some (Node.str v)) ∧
    (∀ (e : Element) (s : String),
      e.text = some s → pyStrip s ≠ "" →
      (∀ c ∈ e.children, c.tag ≠ "#text") →
      lookupD (etdCore e) "#text" = some (Node.str (pyStrip s))) := by
  refine ⟨?_, ?_, ?_⟩
  · simp [xmlLoad, element_to_dict, etdChildren, addChild, lookupD, dictUpdate,
      containsKey, pyStrip, isPySpace, Element.tag, Element.attrib, Element.text,
      Element.children, mkAttrKey, isAttrKey, Node.isList]
  · intro e a v hmem hand hchild
    obtain ⟨tg, at2, tx, c⟩ := e
    simp only [Element.attrib] at hmem hand
    simp only [Element.children] at hchild
    have hnd : ((etdChildren c []).map Prod.fst).Nodup :=
      keys_nodup_etdChildren c [] (by simp)
    simp only [etdCore, Element.attrib, Element.text, Element.children]
    rw [lookupD_dictUpdate _ _ _ hnd, lookupD_etdChildren]
    rw [show lookupD [] (mkAttrKey a) = none from rfl]
    rw [List.filter_eq_nil_iff.mpr (by
      intro x hx
      simpa using hchild x hx)]
    simp only [List.map_nil]
    rw [show combine none [] = none from rfl]
    cases htx : (match tx with
        | some s => if pyStrip s = "" then none else some (pyStrip s)
        | none => (none : Option String)) with
    | none => simp [htx, lookupD_attr_map at2 a v hand hmem]
    | some s2 =>
      simp only [htx, lookupD_append, lookupD_attr_map at2 a v hand hmem]
  · intro e s htx hs hchild
    obtain ⟨tg, at2, tx, c⟩ := e
    simp only [Element.text] at htx
    subst htx
    simp only [Element.children] at hchild
    have hnd : ((etdChildren c []).map Prod.fst).Nodup :=
      keys_nodup_etdChildren c [] (by simp)
    simp only [etdCore, Element.attrib, Element.text, Element.children]
    rw [lookupD_dictUpdate _ _ _ hnd, lookupD_etdChildren]
    rw [show lookupD [] "#text" = none from rfl]
    rw [List.filter_eq_nil_iff.mpr (by
      intro x hx
      simpa using hchild x hx)]
    simp only [List.map_nil]
    rw [show combine none [] = none from rfl]
    simp [if_neg hs, lookupD_append, lookupD_attr_map_text, lookupD]

/-- Witness for C4's attribute and text rules at a concrete element. -/
theorem claim_C4_witness :
    lookupD (etdCore (.mk "p" [("u", "kg")] (some " 7 ") [])) (mkAttrKey "u") =
        some (Node.str "kg") ∧
    lookupD (etdCore (.mk "p" [("u", "kg")] (some " 7 ") [])) "#text" =
        some (Node.str (pyStrip " 7 ")) :=
  ⟨claim_C4.2.1 (.mk "p" [("u", "kg")] (some " 7 ") []) "u" "kg"
      (by simp [Element.attrib]) (by simp [Element.attrib]) (by simp [Element.children]),
    claim_C4.2.2 (.mk "p" [("u", "kg")] (some " 7 ") []) " 7 "
      rfl (by decide) (by simp [Element.children])⟩

def exceptIsPermission : Except PyError Unit → Bool
  | .error e => e.isPermissionError
  | .ok _ => false

/-- C5 counterexample: loading `<a>5</a>`, the decoded root value `"5"`
is not a mapping, yet `XMLParser.load` wraps it under the root tag
`"a"`, not under the synthetic key `"data"`. -/
theorem claim_C5_counterexample :
    (element_to_dict (.mk "a" [] (some "5") [])).isDict = false ∧
    xmlLoad (.mk "a" [] (some "5") []) = Node.dict [("a", Node.str "5")] ∧
    xmlLoad (.mk "a" [] (some "5") []) ≠ Node.dict [("data", Node.str "5")] := by
  have h5 : element_to_dict (.mk "a" [] (some "5") []) = Node.str "5" := by
    simp [element_to_dict, pyStrip, isPySpace]
  refine ⟨by simp [h5, Node.isDict], ?_, ?_⟩
  · simp [xmlLoad, h5, Element.tag]
  · simp only [xmlLoad, h5, Element.tag]
    intro hcontra
    simp at hcontra

/-- C5 amended: every successful load returns a mapping; the JSON and
YAML adapters wrap a non-mapping decoded value as the single entry
`"data"`, while the XML adapter wraps the converted root under the root
element's tag (using `"data"` only when the root tag is empty). -/
theorem claim_C5 :
    (∀ v : Node, (jsonLoad v).isDict = true ∧ (yamlLoad v).isDict = true ∧
      (v.isDict = false →
        jsonLoad v = Node.dict [("data", v)] ∧
        yamlLoad v = Node.dict [("data", v)])) ∧
    (∀ root : Element, (xmlLoad root).isDict = true ∧
      (root.tag ≠ "" →
        xmlLoad root = Node.dict [(root.tag, element_to_dict root)]) ∧
      (root.tag = "" → (element_to_dict root).isDict = false →
        xmlLoad root = Node.dict [("data", element_to_dict root)])) := by
  constructor
  · intro v
    refine ⟨?_, ?_, ?_⟩
    · cases v <;> simp [jsonLoad, Node.isDict]
    · cases v <;> simp [yamlLoad, Node.isDict]
    · intro hv
      cases v <;> simp [Node.isDict] at hv ⊢ <;> simp [jsonLoad, yamlLoad]
  · intro root
    by_cases ht : root.tag = ""
    · refine ⟨?_, fun hc => absurd ht hc, fun _ hd => ?_⟩
      · simp only [xmlLoad, ht]
        cases hE : element_to_dict root <;> simp [Node.isDict]
      · simp only [xmlLoad, ht]
        cases hE : element_to_dict root <;> simp [Node.isDict, hE] at hd ⊢
    · refine ⟨?_, fun _ => ?_, fun hc => absurd hc ht⟩
      · simp [xmlLoad, ht, Node.isDict]
      · simp [xmlLoad, ht]

/-- Witness for C5 at concrete non-mapping decoded values. -/
theorem claim_C5_witness :
    jsonLoad (Node.int 5) = Node.dict [("data", Node.int 5)] ∧
    yamlLoad (Node.list [Node.int 1]) =
      Node.dict [("data", Node.list [Node.int 1])] ∧
    xmlLoad (.mk "a" [] (some "5") []) =
      Node.dict [("a", element_to_dict (.mk "a" [] (some "5") []))] :=
  ⟨((claim_C5.1 (Node.int 5)).2.2 rfl).1,
   ((claim_C5.1 (Node.list [Node.int 1])).2.2 rfl).2,
   ((claim_C5.2 (.mk "a" [] (some "5") [])).2.1 (by decide))⟩

/-- C9: format detection maps the lowercased extension (`.json`,
`.yaml`/`.yml`, `.xml`) to its format and everything else to
`"unknown"`, and an unknown input extension makes `process_conversion`
fail with `Unsupported input file format` no matter what the load and
save phases would do. -/
theorem claim_C9 :
    detect_input_format ".json" = "json" ∧
    detect_input_format ".JSON" = "json" ∧
    detect_input_format ".yaml" = "yaml" ∧
    detect_input_format ".Yml" = "yaml" ∧
    detect_input_format ".xml" = "xml" ∧
    detect_input_format ".txt" = "unknown" ∧
    (∀ s t : String, pyLower s = pyLower t →
      detect_input_format s = detect_input_format t) ∧
    (∀ s : String, pyLower s ≠ ".json" → pyLower s ≠ ".yaml" →
      pyLower s ≠ ".yml" → pyLower s ≠ ".xml" →
      detect_input_format s = "unknown") ∧
    (∀ (sfx outFmt : String) (loadO : Except PyError Node)
        (saveO : Node → Except PyError Unit),
      detect_input_format sfx = "unknown" →
      process_conversion sfx outFmt loadO saveO =
        .error (.valueError ("Unsupported input file format: " ++ sfx))) := by
  refine ⟨by decide, by decide, by decide, by decide, by decide, by decide,
    ?_, ?_, ?_⟩
  · intro s t h
    simp only [detect_input_format, h]
  · intro s h1 h2 h3 h4
    simp [detect_input_format, h1, h2, h3, h4]
  · intro sfx outFmt loadO saveO h
    simp [process_conversion, h]

/-- Witness for C9's case-insensitivity and fail-fast rules at concrete
inputs. -/
theorem claim_C9_witness :
    detect_input_format ".XML" = detect_input_format ".xml" ∧
    detect_input_format ".csv" = "unknown" ∧
    process_conversion ".txt" "json" (.ok Node.null) (fun _ => .ok ()) =
      .error (.valueError "Unsupported input file format: .txt") :=
  ⟨claim_C9.2.2.2.2.2.2.1 ".XML" ".xml" (by decide),
   claim_C9.2.2.2.2.2.2.2.1 ".csv" (by decide) (by decide) (by decide) (by decide),
   claim_C9.2.2.2.2.2.2.2.2 ".txt" "json" (.ok Node.null) (fun _ => .ok ())
     (by decide)⟩

/-- C8 counterexample: a `PermissionError` raised by the adapter's save
inside `process_conversion` does not reach the top level as a
`PermissionError`: the conversion wrapper catches every exception from
the save phase and re-raises a `ValueError`. -/
theorem claim_C8_counterexample :
    process_conversion ".json" "json" (.ok Node.null)
        (fun _ => jsonSaveResult "out.json" .permissionDenied) =
      .error (.valueError
        "Error processing JSON to JSON conversion: No permission to write file: out.json") ∧
    exceptIsPermission
      (process_conversion ".json" "json" (.ok Node.null)
        (fun _ => jsonSaveResult "out.json" .permissionDenied)) = false := by
  constructor
  · rfl
  · rfl

/-- C8 amended: load-phase errors propagate to the driver with their
class unchanged, but an error raised during the save phase — a
`PermissionError` included — is re-raised as a `ValueError` embedding
the original message; the top-level handler renders any caught error to
stderr with exit code 1. -/
theorem claim_C8 :
    (∀ (sfx outFmt : String) (e : PyError)
        (saveO : Node → Except PyError Unit),
      detect_input_format sfx ≠ "unknown" →
      process_conversion sfx outFmt (.error e) saveO = .error e) ∧
    (∀ (outFmt : String) (data : Node) (m : String),
      outFmt = "json" ∨ outFmt = "yaml" ∨ outFmt = "xml" →
      process_conversion ".json" outFmt (.ok data)
          (fun _ => .error (.permissionError m)) =
        .error (.valueError ("Error processing JSON to " ++ pyUpper outFmt ++
          " conversion: " ++ m))) ∧
    (∀ m : String,
      mainHandle (.error (.valueError m)) = (1, some ("Error: " ++ m)) ∧
      mainHandle (.error (.permissionError m)) = (1, some ("Error: " ++ m)) ∧
      mainHandle (.error (.fileNotFound m)) = (1, some ("Error: " ++ m))) := by
  refine ⟨?_, ?_, ?_⟩
  · intro sfx outFmt e saveO h
    simp [process_conversion, h]
  · intro outFmt data m hfmt
    have hdet : detect_input_format ".json" = "json" := by decide
    rcases hfmt with h | h | h <;> subst h <;>
      simp [process_conversion, hdet, pyUpper, PyError.msg]
  · intro m
    refine ⟨rfl, rfl, rfl⟩

/-- Witness for C8 at a concrete permission failure during save. -/
theorem claim_C8_witness :
    process_conversion ".json" "yaml" (.ok Node.null)
        (fun _ => .error (.permissionError "No permission to write file: o.yaml")) =
      .error (.valueError ("Error processing JSON to " ++ pyUpper "yaml" ++
        " conversion: " ++ "No permission to write file: o.yaml")) :=
  claim_C8.2.1 "yaml" Node.null "No permission to write file: o.yaml"
    (Or.inr (Or.inl rfl))

theorem isAttrKey_ne_text (k : String) (h : isAttrKey k = true) : k ≠ "#text" := by
  intro he
  subst he
  simp [isAttrKey] at h

theorem dtePairs_text_blank (entries : List (String × Node))
    (h : ∀ p ∈ entries, p.1 = "#text" → pyStr p.2 = "") :
    (dtePairs entries).2.1 = none ∨ (dtePairs entries).2.1 = some "" := by
  induction entries with
  | nil => left; simp [dtePairs]
  | cons p rest ih =>
    obtain ⟨k, v⟩ := p
    have hrest := ih (fun q hq => h q (List.mem_cons_of_mem _ hq))
    by_cases ha : isAttrKey k
    · rcases hrest with h2 | h2
      · left
        conv_lhs => rw [dtePairs.eq_def]
        cases v <;> simp [ha, h2]
      · right
        conv_lhs => rw [dtePairs.eq_def]
        cases v <;> simp [ha, h2]
    · by_cases hk : k = "#text"
      · subst hk
        have hv : pyStr v = "" := h ("#text", v) (List.mem_cons_self _ _) rfl
        have hattr : isAttrKey "#text" = false := by decide
        right
        conv_lhs => rw [dtePairs.eq_def]
        rcases hrest with h2 | h2 <;> cases v <;>
          simp [hattr, h2] <;> simp_all [pyStr]
      · simp only [Bool.not_eq_true] at ha
        rcases hrest with h2 | h2
        · left
          conv_lhs => rw [dtePairs.eq_def]
          cases v <;> simp [ha, hk, h2]
        · right
          conv_lhs => rw [dtePairs.eq_def]
          cases v <;> simp [ha, hk, h2]

theorem dtePairs_drop_text (entries : List (String × Node))
    (h : ∀ p ∈ entries, p.1 = "#text" → pyStr p.2 = "") :
    dtePairs (entries.filter (fun p => p.1 != "#text")) =
      ((dtePairs entries).1, none, (dtePairs entries).2.2) := by
  induction entries with
  | nil => simp [dtePairs]
  | cons p rest ih =>
    obtain ⟨k, v⟩ := p
    have hrest := ih (fun q hq => h q (List.mem_cons_of_mem _ hq))
    by_cases hk : k = "#text"
    · subst hk
      have hattr : isAttrKey "#text" = false := by decide
      have hfil : ((("#text", v) :: rest).filter (fun p => p.1 != "#text")) =
          rest.filter (fun p => p.1 != "#text") := by
        simp [List.filter_cons]
      rw [hfil, hrest]
      conv_rhs => rw [dtePairs.eq_def]
      cases v <;> simp [hattr]
    · have hfil : (((k, v) :: rest).filter (fun p => p.1 != "#text")) =
          (k, v) :: rest.filter (fun p => p.1 != "#text") := by
        simp [List.filter_cons, hk]
      rw [hfil]
      conv_lhs => rw [dtePairs.eq_def]
      conv_rhs => rw [dtePairs.eq_def]
      by_cases ha : isAttrKey k
      · cases v <;> simp [ha, hk, hrest]
      · simp only [Bool.not_eq_true] at ha
        cases v <;> simp [ha, hk, hrest]

/-- C10: every `#text` entry stringifying to the empty string is
silently dropped by `_dict_to_element`: the element's direct text stays
unset and the output equals that for the same mapping with the `#text`
entries removed. -/
theorem claim_C10 (tag : String) (entries : List (String × Node))
    (hmem : containsKey entries "#text" = true)
    (h : ∀ p ∈ entries, p.1 = "#text" → pyStr p.2 = "") :
    (dict_to_element tag (.dict entries)).text = none ∧
    dict_to_element tag (.dict entries) =
      dict_to_element tag (.dict (entries.filter (fun p => p.1 != "#text"))) := by
  have hfil := dtePairs_drop_text entries h
  have htxt := dtePairs_text_blank entries h
  have htext : (match (dtePairs entries).2.1 with
      | some s => if s = "" then none else some s
      | none => (none : Option String)) = none := by
    rcases htxt with h2 | h2 <;> simp [h2]
  constructor
  · simp only [dict_to_element, Element.text, htext]
  · simp only [dict_to_element, hfil, htext]

/-- Witness for C10 at a concrete mapping with a blank `#text`. -/
theorem claim_C10_witness :
    (dict_to_element "r" (.dict [("a", Node.str "1"), ("#text", Node.str "")])).text
        = none ∧
    dict_to_element "r" (.dict [("a", Node.str "1"), ("#text", Node.str "")]) =
      dict_to_element "r"
        (.dict ([("a", Node.str "1"), ("#text", Node.str "")].filter
          (fun p => p.1 != "#text"))) :=
  claim_C10 "r" [("a", Node.str "1"), ("#text", Node.str "")]
    (by decide)
    (by
      intro p hp hx
      simp only [List.mem_cons, List.not_mem_nil, or_false] at hp
      rcases hp with h1 | h1
      · subst h1
        simp at hx
      · subst h1
        simp [pyStr])

/-- Whether a rendered document's first character is an opening brace
(code point 123), i.e. the output is mapping-rooted JSON. -/
def headIsLBrace (s : String) : Bool :=
  match s.data with
  | c :: _ => c.toNat = 123
  | [] => false

/-- C7: a non-mapping JSON/YAML root is wrapped under `"data"` on load,
and save never unwraps a literal single-entry `"data"` mapping: the
saved document is mapping-rooted, so a scalar-rooted document does not
round-trip to itself. -/
theorem claim_C7 (v : Node) (hv : v.isDict = false) :
    jsonLoad v = Node.dict [("data", v)] ∧
    yamlLoad v = Node.dict [("data", v)] ∧
    headIsLBrace (jsonSaveText (jsonLoad v)) = true ∧
    (yamlSaveText (yamlLoad v)).data.take 5 = "data:".data ∧
    jsonSaveText (jsonLoad (Node.int 5)) ≠ jsonSaveText (Node.int 5) ∧
    yamlSaveText (yamlLoad (Node.int 5)) ≠ yamlSaveText (Node.int 5) := by
  have hj : jsonLoad v = Node.dict [("data", v)] := by
    cases v <;> simp [Node.isDict] at hv ⊢ <;> simp [jsonLoad]
  have hy : yamlLoad v = Node.dict [("data", v)] := by
    cases v <;> simp [Node.isDict] at hv ⊢ <;> simp [yamlLoad]
  refine ⟨hj, hy, ?_, ?_, ?_, ?_⟩
  · rw [hj]
    have hc : canon (Node.dict [("data", v)]) =
        Node.dict [("data", canon v)] := by
      simp [canon, canonD]
    have hdata : ("\x7b\n" : String).data = ['\x7b', '\n'] := rfl
    simp [jsonSaveText, hc, jsonRender, headIsLBrace, String.data_append, hdata]
  · rw [hy]
    have hc : canon (Node.dict [("data", v)]) =
        Node.dict [("data", canon v)] := by
      simp [canon, canonD]
    have hd1 : ("data" : String).data = ['d', 'a', 't', 'a'] := rfl
    have hd2 : (":" : String).data = [':'] := rfl
    have hd3 : ("data:" : String).data = ['d', 'a', 't', 'a', ':'] := rfl
    have hpad : (pad 0).data = [] := rfl
    simp [yamlSaveText, hc, yamlDictLines, String.data_append, hd1, hd2, hd3,
      hpad]
  · have h1 : jsonSaveText (jsonLoad (Node.int 5)) =
        "\x7b\n  \"data\": 5\n\x7d" := by
      simp [jsonLoad, jsonSaveText, canon, canonD, jsonRender, jsonRenderD,
        jsonStr, jsonEscChar, pad]
      decide
    have h2 : jsonSaveText (Node.int 5) = "5" := by
      simp [jsonSaveText, canon, jsonRender]
      decide
    rw [h1, h2]
    decide
  · have h1 : yamlSaveText (yamlLoad (Node.int 5)) = "data: 5\n" := by
      simp [yamlLoad, yamlSaveText, canon, canonD, yamlDictLines, yamlValue,
        yamlScalar, pad, Node.isScalar]
      decide
    have h2 : yamlSaveText (Node.int 5) = "5\n...\n" := by
      simp [yamlSaveText, canon, yamlScalar]
      decide
    rw [h1, h2]
    decide

/-- Witness for C7 at a concrete scalar-rooted document. -/
theorem claim_C7_witness :
    jsonLoad (Node.str "x") = Node.dict [("data", Node.str "x")] ∧
    headIsLBrace (jsonSaveText (jsonLoad (Node.str "x"))) = true :=
  ⟨(claim_C7 (Node.str "x") rfl).1, (claim_C7 (Node.str "x") rfl).2.2.1⟩

theorem canonD_eq_map (l : List (String × Node)) :
    canonD l = l.map (fun p => (p.1, canon p.2)) := by
  induction l with
  | nil => simp [canonD]
  | cons p rest ih =>
    obtain ⟨k, v⟩ := p
    conv_lhs => rw [canonD.eq_def]
    simp [ih]

theorem canonL_eq_map (l : List Node) : canonL l = l.map canon := by
  induction l with
  | nil => simp [canonL]
  | cons x rest ih =>
    conv_lhs => rw [canonL.eq_def]
    simp [ih]

theorem jsonRenderL_eq_map (lvl : Nat) (l : List Node) :
    jsonRenderL lvl l = l.map (fun x => pad lvl ++ jsonRender lvl x) := by
  induction l with
  | nil => simp [jsonRenderL]
  | cons x rest ih =>
    conv_lhs => rw [jsonRenderL.eq_def]
    simp [ih]

theorem mergeSort_eq_of_perm_nodup (l1 l2 : List (String × Node))
    (hp : l1.Perm l2) (hnd : (l1.map Prod.fst).Nodup) :
    l1.mergeSort keyLe = l2.mergeSort keyLe := by
  have htrans : ∀ a b c : String × Node, keyLe a b → keyLe b c → keyLe a c := by
    intro a b c hab hbc
    simp only [keyLe, decide_eq_true_eq] at *
    exact le_trans hab hbc
  have htotal : ∀ a b : String × Node, keyLe a b || keyLe b a := by
    intro a b
    simp only [keyLe]
    rcases le_total a.1 b.1 with h | h <;> simp [h]
  have hs1 := List.sorted_mergeSort htrans htotal l1
  have hs2 := List.sorted_mergeSort htrans htotal l2
  have hperm : (l1.mergeSort keyLe).Perm (l2.mergeSort keyLe) :=
    ((List.mergeSort_perm l1 keyLe).trans hp).trans
      (List.mergeSort_perm l2 keyLe).symm
  have hnd1 : ((l1.mergeSort keyLe).map Prod.fst).Nodup :=
    (((List.mergeSort_perm l1 keyLe).map Prod.fst).nodup_iff).mpr hnd
  have hnd2 : ((l2.mergeSort keyLe).map Prod.fst).Nodup := by
    refine ((hperm.map Prod.fst).nodup_iff).mp hnd1
  have hlt : ∀ (l : List (String × Node)),
      l.Pairwise (fun a b => keyLe a b = true) →
      ((l.map Prod.fst).Nodup) →
      l.Pairwise (fun a b : String × Node => a.1 < b.1) := by
    intro l hle hnd3
    have hne : l.Pairwise (fun a b : String × Node => a.1 ≠ b.1) :=
      (List.pairwise_map).mp hnd3
    refine (hle.and hne).imp ?_
    intro a b hab
    have h1 : a.1 ≤ b.1 := by
      have := hab.1
      simpa [keyLe] using this
    exact lt_of_le_of_ne h1 hab.2
  haveI : IsAntisymm (String × Node) (fun a b => a.1 < b.1) :=
    ⟨fun a b h1 h2 => absurd h1 (lt_asymm h2)⟩
  exact List.eq_of_perm_of_sorted hperm (hlt _ hs1 hnd1) (hlt _ hs2 hnd2)

/-- C6: saving the same mapping with entries in two insertion orders
produces byte-identical JSON and YAML; the canonical entry list is the
lexicographic key sort of the entries, and sequences are canonicalized
and rendered elementwise in their given order. -/
theorem claim_C6 (d1 d2 : List (String × Node))
    (hperm : d1.Perm d2) (hnd : (d1.map Prod.fst).Nodup) :
    jsonSaveText (Node.dict d1) = jsonSaveText (Node.dict d2) ∧
    yamlSaveText (Node.dict d1) = yamlSaveText (Node.dict d2) ∧
    ((canonD d1).mergeSort keyLe).Pairwise (fun a b => keyLe a b = true) ∧
    ((canonD d1).mergeSort keyLe).Perm (canonD d1) ∧
    (∀ l : List Node, canon (.list l) = .list (l.map canon)) ∧
    (∀ (lvl : Nat) (l : List Node),
      jsonRenderL lvl l = l.map (fun x => pad lvl ++ jsonRender lvl x)) := by
  have hckeys : (canonD d1).map Prod.fst = d1.map Prod.fst := by
    rw [canonD_eq_map, List.map_map]
    rfl
  have hcperm : (canonD d1).Perm (canonD d2) := by
    rw [canonD_eq_map, canonD_eq_map]
    exact hperm.map _
  have hcnd : ((canonD d1).map Prod.fst).Nodup := by
    rw [hckeys]; exact hnd
  have hsort : (canonD d1).mergeSort keyLe = (canonD d2).mergeSort keyLe :=
    mergeSort_eq_of_perm_nodup _ _ hcperm hcnd
  have hcanon : canon (Node.dict d1) = canon (Node.dict d2) := by
    rw [canon.eq_def, canon.eq_def]
    simp [hsort]
  refine ⟨?_, ?_, ?_, ?_, ?_, ?_⟩
  · simp [jsonSaveText, hcanon]
  · simp [yamlSaveText, hcanon]
  · have htrans : ∀ a b c : String × Node, keyLe a b → keyLe b c → keyLe a c := by
      intro a b c hab hbc
      simp only [keyLe, decide_eq_true_eq] at *
      exact le_trans hab hbc
    have htotal : ∀ a b : String × Node, keyLe a b || keyLe b a := by
      intro a b
      simp only [keyLe]
      rcases le_total a.1 b.1 with h | h <;> simp [h]
    exact List.sorted_mergeSort htrans htotal (canonD d1)
  · exact List.mergeSort_perm _ _
  · intro l
    rw [canon.eq_def]
    simp [canonL_eq_map]
  · exact jsonRenderL_eq_map

/-- Witness for C6 at two insertion orders of the same mapping. -/
theorem claim_C6_witness :
    jsonSaveText (Node.dict [("b", Node.int 2), ("a", Node.int 1)]) =
      jsonSaveText (Node.dict [("a", Node.int 1), ("b", Node.int 2)]) ∧
    yamlSaveText (Node.dict [("b", Node.int 2), ("a", Node.int 1)]) =
      yamlSaveText (Node.dict [("a", Node.int 1), ("b", Node.int 2)]) := by
  have h := claim_C6 [("b", Node.int 2), ("a", Node.int 1)]
    [("a", Node.int 1), ("b", Node.int 2)]
    (List.Perm.swap ("a", Node.int 1) ("b", Node.int 2) [])
    (by simp)
  exact ⟨h.1, h.2.1⟩

/-!
## XML round-trip (C1)

The round-trip property holds only for a restricted class of trees;
`goodVal` captures it exactly: scalars are nonempty trim-invariant
strings, attribute values are strings, `#text` values are nonempty
trim-invariant strings, sequences under a key have at least two
elements, and every mapping is nonempty with distinct keys; a mapping
with exactly one entry is allowed only when that entry is an attribute
or a sequence under a non-`#text` key.  Other singletons fail: a lone
`#text` entry produces a bare text element that the reader's
single-text-leaf shortcut turns back into a plain string, and a lone
non-attribute, non-`#text` entry with a non-sequence value is unwrapped
by the collapse rule on re-load.
-/
mutual

def goodVal : Node → Bool
  | .str s => decide (pyStrip s = s) && decide (s ≠ "")
  | .dict entries =>
    !entries.isEmpty &&
    decide ((entries.map Prod.fst).Nodup) &&
    goodEntries entries &&
    (match entries with
     | [(k, v)] => isAttrKey k || (decide (k ≠ "#text") && v.isList)
     | _ => true)
  | _ => false

def goodEntry : String × Node → Bool
  | (k, v) =>
    if isAttrKey k then v.isStr
    else if k = "#text" then
      (match v with
       | .str s => decide (pyStrip s = s) && decide (s ≠ "")
       | _ => false)
    else
      (match v with
       | .list items => decide (2 ≤ items.length) && goodValL items
       | v => goodVal v)

def goodValL : List Node → Bool
  | [] => true
  | x :: xs => goodVal x && goodValL xs

def goodEntries : List (String × Node) → Bool
  | [] => true
  | e :: es => goodEntry e && goodEntries es

end

/-- The attribute pairs `_dict_to_element` accumulates over a dict. -/
def attrsOf : List (String × Node) → List (String × String)
  | [] => []
  | (k, v) :: rest =>
    if isAttrKey k then (attrName k, pyStr v) :: attrsOf rest else attrsOf rest

/-- The pending `#text` content accumulated over a dict (last wins). -/
def textOf : List (String × Node) → Option String
  | [] => none
  | (k, v) :: rest =>
    if isAttrKey k then textOf rest
    else if k = "#text" then
      (match textOf rest with
       | some t => some t
       | none => some (pyStr v))
    else textOf rest

/-- The child elements `_dict_to_element` emits over a dict. -/
def childrenOf : List (String × Node) → List Element
  | [] => []
  | (k, v) :: rest =>
    if isAttrKey k then childrenOf rest
    else if k = "#text" then childrenOf rest
    else
      (match v with
       | .list items => dteList k items
       | v => [dict_to_element k v]) ++ childrenOf rest

theorem dte_tag (k : String) (v : Node) : (dict_to_element k v).tag = k := by
  cases v <;> simp [dict_to_element, Element.tag]

theorem dteList_eq_map (k : String) (items : List Node) :
    dteList k items = items.map (dict_to_element k) := by
  induction items with
  | nil => simp [dteList]
  | cons x rest ih =>
    conv_lhs => rw [dteList.eq_def]
    simp [ih]

theorem dtePairs_eq (entries : List (String × Node)) :
    dtePairs entries = (attrsOf entries, textOf entries, childrenOf entries) := by
  induction entries with
  | nil => simp [dtePairs, attrsOf, textOf, childrenOf]
  | cons p rest ih =>
    obtain ⟨k, v⟩ := p
    conv_lhs => rw [dtePairs.eq_def]
    by_cases ha : isAttrKey k
    · cases v <;> simp [ha, ih, attrsOf, textOf, childrenOf]
    · by_cases hk : k = "#text"
      · subst hk
        simp only [Bool.not_eq_true] at ha
        cases v <;> simp [ha, ih, attrsOf, textOf, childrenOf]
      · simp only [Bool.not_eq_true] at ha
        cases v <;> simp [ha, hk, ih, attrsOf, textOf, childrenOf]

def childEntryB (p : String × Node) : Bool :=
  !isAttrKey p.1 && p.1 != "#text"

/-- The run of child elements one non-reserved entry contributes. -/
def writeGroup (p : String × Node) : List Element :=
  match p.2 with
  | .list items => dteList p.1 items
  | v => [dict_to_element p.1 v]

def groupsConcat : List (String × Node) → List Element
  | [] => []
  | p :: rest => writeGroup p ++ groupsConcat rest

/-- The node the reader rebuilds for one non-reserved entry's run. -/
def readGroup (p : String × Node) : Node :=
  match writeGroup p with
  | [e] => element_to_dict e
  | es => .list (es.map element_to_dict)

theorem attrsOf_eq (entries : List (String × Node)) :
    attrsOf entries = (entries.filter (fun p => isAttrKey p.1)).map
      (fun p => (attrName p.1, pyStr p.2)) := by
  induction entries with
  | nil => simp [attrsOf]
  | cons p rest ih =>
    obtain ⟨k, v⟩ := p
    by_cases ha : isAttrKey k <;> simp [attrsOf, List.filter_cons, ha, ih]

theorem childrenOf_eq (entries : List (String × Node)) :
    childrenOf entries = groupsConcat (entries.filter childEntryB) := by
  induction entries with
  | nil => simp [childrenOf, groupsConcat]
  | cons p rest ih =>
    obtain ⟨k, v⟩ := p
    by_cases ha : isAttrKey k
    · simp [childrenOf, List.filter_cons, childEntryB, ha, ih]
    · by_cases hk : k = "#text"
      · subst hk
        simp [childrenOf, List.filter_cons, childEntryB, ha, ih]
      · have hb : childEntryB (k, v) = true := by
          simp [childEntryB, ha, hk]
        cases v <;>
          simp [childrenOf, List.filter_cons, ha, hk, hb, ih, groupsConcat,
            writeGroup]

theorem textOf_eq_none (entries : List (String × Node))
    (h : "#text" ∉ entries.map Prod.fst) : textOf entries = none := by
  induction entries with
  | nil => simp [textOf]
  | cons p rest ih =>
    obtain ⟨k, v⟩ := p
    simp only [List.map, List.mem_cons, not_or] at h
    have hk : k ≠ "#text" := fun he => h.1 he.symm
    by_cases ha : isAttrKey k <;> simp [textOf, ha, hk, ih h.2]

theorem textOf_eq_lookup (entries : List (String × Node))
    (hnd : (entries.map Prod.fst).Nodup) :
    textOf entries = (lookupD entries "#text").map pyStr := by
  induction entries with
  | nil => simp [textOf, lookupD]
  | cons p rest ih =>
    obtain ⟨k, v⟩ := p
    have hnd' : (rest.map Prod.fst).Nodup := (List.nodup_cons.mp hnd).2
    by_cases hk : k = "#text"
    · subst hk
      have hni : "#text" ∉ rest.map Prod.fst := (List.nodup_cons.mp hnd).1
      have ha : isAttrKey "#text" = false := by decide
      simp [textOf, ha, textOf_eq_none rest hni, lookupD]
    · by_cases ha : isAttrKey k <;> simp [textOf, ha, hk, lookupD, ih hnd']

theorem goodEntries_mem (entries : List (String × Node))
    (h : goodEntries entries = true) (p : String × Node) (hp : p ∈ entries) :
    goodEntry p = true := by
  induction entries with
  | nil => simp at hp
  | cons q rest ih =>
    rw [goodEntries] at h
    simp only [Bool.and_eq_true] at h
    rcases List.mem_cons.mp hp with he | he
    · subst he
      exact h.1
    · exact ih h.2 he

theorem goodValL_mem (items : List Node) (h : goodValL items = true)
    (x : Node) (hx : x ∈ items) : goodVal x = true := by
  induction items with
  | nil => simp at hx
  | cons y rest ih =>
    rw [goodValL] at h
    simp only [Bool.and_eq_true] at h
    rcases List.mem_cons.mp hx with he | he
    · subst he
      exact h.1
    · exact ih h.2 he

theorem lookupD_of_mem_nodup (entries : List (String × Node))
    (hnd : (entries.map Prod.fst).Nodup) (k : String) (v : Node)
    (hmem : (k, v) ∈ entries) : lookupD entries k = some v := by
  induction entries with
  | nil => simp at hmem
  | cons p rest ih =>
    obtain ⟨k2, v2⟩ := p
    rcases List.mem_cons.mp hmem with he | he
    · rw [Prod.mk.injEq] at he
      obtain ⟨h1, h2⟩ := he
      subst h1; subst h2
      simp [lookupD]
    · have hne : k2 ≠ k := by
        intro hcontra
        subst hcontra
        exact (List.nodup_cons.mp hnd).1 (List.mem_map.mpr ⟨(k2, v), he, rfl⟩)
      simp only [lookupD, hne, if_false]
      exact ih (List.nodup_cons.mp hnd).2 he

theorem mkAttrKey_attrName (k : String) (h : isAttrKey k = true) :
    mkAttrKey (attrName k) = k := by
  obtain ⟨data⟩ := k
  cases data with
  | nil => simp [isAttrKey] at h
  | cons c rest =>
    have hc : c = '@' := by
      simpa [isAttrKey] using h
    subst hc
    simp [mkAttrKey, attrName]

theorem pyEqD_append (l1 l2 o : List (String × Node)) :
    pyEqD (l1 ++ l2) o = (pyEqD l1 o && pyEqD l2 o) := by
  induction l1 with
  | nil => simp [pyEqD]
  | cons p rest ih =>
    obtain ⟨k, v⟩ := p
    conv_lhs => rw [pyEqD.eq_def]
    conv_rhs => rw [pyEqD.eq_def]
    simp only [List.cons_append]
    rw [ih]
    cases lookupD o k <;> simp [Bool.and_assoc]

theorem pyEqD_of_forall (l o : List (String × Node))
    (h : ∀ p ∈ l, ∃ w, lookupD o p.1 = some w ∧ pyEq p.2 w = true) :
    pyEqD l o = true := by
  induction l with
  | nil => simp [pyEqD]
  | cons p rest ih =>
    obtain ⟨k, v⟩ := p
    obtain ⟨w, hw, hpe⟩ := h (k, v) (List.mem_cons_self _ _)
    simp only at hw hpe
    have hstep : pyEqD ((k, v) :: rest) o =
        ((match lookupD o k with
          | some w => pyEq v w
          | none => false) && pyEqD rest o) := by
      rw [pyEqD.eq_def]
    rw [hstep, hw]
    simp [hpe, ih (fun q hq => h q (List.mem_cons_of_mem _ hq))]

theorem pyEqL_of_map (f : Node → Node) (items : List Node)
    (h : ∀ x ∈ items, pyEq (f x) x = true) :
    pyEqL (items.map f) items = true := by
  induction items with
  | nil => simp [pyEqL]
  | cons x rest ih =>
    conv_lhs => rw [pyEqL.eq_def]
    simp only [List.map]
    simp [h x (List.mem_cons_self _ _),
      ih (fun y hy => h y (List.mem_cons_of_mem _ hy))]

/-- Partition count: attributes, the single `#text` slot, and child
entries together account for every entry of a distinct-key dict. -/
theorem partition_length (entries : List (String × Node))
    (hnd : (entries.map Prod.fst).Nodup) :
    (entries.filter (fun p => isAttrKey p.1)).length +
      (match textOf entries with | some _ => 1 | none => 0) +
      (entries.filter childEntryB).length = entries.length := by
  induction entries with
  | nil => simp [textOf]
  | cons p rest ih =>
    obtain ⟨k, v⟩ := p
    have hnd2 : (rest.map Prod.fst).Nodup := (List.nodup_cons.mp hnd).2
    have ihr := ih hnd2
    by_cases ha : isAttrKey k
    · have hcb : childEntryB (k, v) = false := by simp [childEntryB, ha]
      have h1 : ((k, v) :: rest).filter (fun p => isAttrKey p.1) =
          (k, v) :: rest.filter (fun p => isAttrKey p.1) := by
        simp [List.filter_cons, ha]
      have h2 : ((k, v) :: rest).filter childEntryB = rest.filter childEntryB := by
        simp [List.filter_cons, hcb]
      have h3 : textOf ((k, v) :: rest) = textOf rest := by
        simp [textOf, ha]
      rw [h1, h2, h3, List.length_cons, List.length_cons]
      omega
    · by_cases hk : k = "#text"
      · subst hk
        have hni : "#text" ∉ rest.map Prod.fst := (List.nodup_cons.mp hnd).1
        have hto : textOf rest = none := textOf_eq_none rest hni
        have hcb : childEntryB ("#text", v) = false := by
          simp [childEntryB]
        have h1 : (("#text", v) :: rest).filter (fun p => isAttrKey p.1) =
            rest.filter (fun p => isAttrKey p.1) := by
          simp [List.filter_cons, ha]
        have h2 : (("#text", v) :: rest).filter childEntryB =
            rest.filter childEntryB := by
          simp [List.filter_cons, hcb]
        have h3 : textOf (("#text", v) :: rest) = some (pyStr v) := by
          simp [textOf, ha, hto]
        rw [h1, h2, h3, List.length_cons]
        rw [hto] at ihr
        simp only at ihr ⊢
        omega
      · have hcb : childEntryB (k, v) = true := by simp [childEntryB, ha, hk]
        have h1 : ((k, v) :: rest).filter (fun p => isAttrKey p.1) =
            rest.filter (fun p => isAttrKey p.1) := by
          simp [List.filter_cons, ha]
        have h2 : ((k, v) :: rest).filter childEntryB =
            (k, v) :: rest.filter childEntryB := by
          simp [List.filter_cons, hcb]
        have h3 : textOf ((k, v) :: rest) = textOf rest := by
          simp [textOf, ha, hk]
        rw [h1, h2, h3, List.length_cons, List.length_cons]
        omega

/-- The value stored under a tag after folding in one run of same-tag
children: the node itself for a single child, else the list of nodes. -/
def groupVal (es : List Element) : Node :=
  match es with
  | [e] => element_to_dict e
  | _ => .list (es.map element_to_dict)

theorem readGroup_eq (p : String × Node) :
    readGroup p = groupVal (writeGroup p) := by
  rw [readGroup.eq_def, groupVal.eq_def]
  cases hw : writeGroup p with
  | nil => rfl
  | cons e rest => cases rest <;> rfl

theorem writeGroup_tags (p : String × Node) (e : Element)
    (he : e ∈ writeGroup p) : e.tag = p.1 := by
  obtain ⟨k, v⟩ := p
  cases v <;> simp only [writeGroup, dteList_eq_map] at he
  case list items =>
    obtain ⟨x, _, hx⟩ := List.mem_map.mp he
    rw [← hx, dte_tag]
  all_goals
    simp only [List.mem_singleton] at he
  all_goals
    rw [he, dte_tag]

theorem addChild_found_nonlist (m : List (String × Node)) (t : String)
    (w d : Node) (hl : lookupD m t = some w) (hw : w.isList = false) :
    addChild m t d = updateD m t (.list [w, d]) := by
  unfold addChild
  rw [hl]
  cases w <;> simp [Node.isList] at hw ⊢

theorem etdChildren_list_acc (es : List Element) :
    ∀ (acc : List (String × Node)) (k : String) (ws : List Node),
      (∀ e ∈ es, e.tag = k) → lookupD acc k = some (.list ws) →
      etdChildren es acc = updateD acc k (.list (ws ++ es.map element_to_dict)) := by
  induction es with
  | nil =>
    intro acc k ws _ hl
    simp only [etdChildren, List.map_nil, List.append_nil]
    exact (updateD_lookup_self acc k _ hl).symm
  | cons e rest ih =>
    intro acc k ws htags hl
    have hek : e.tag = k := htags e (List.mem_cons_self _ _)
    have hck : containsKey acc k = true := by simp [containsKey, hl]
    simp only [etdChildren]
    rw [hek]
    have hstep : addChild acc k (element_to_dict e) =
        updateD acc k (.list (ws ++ [element_to_dict e])) := by
      unfold addChild
      rw [hl]
    rw [hstep]
    have hl2 : lookupD (updateD acc k (.list (ws ++ [element_to_dict e]))) k =
        some (.list (ws ++ [element_to_dict e])) :=
      lookupD_updateD_self acc k _ hck
    rw [ih _ k (ws ++ [element_to_dict e])
      (fun x hx => htags x (List.mem_cons_of_mem _ hx)) hl2]
    rw [updateD_updateD]
    simp

theorem etdChildren_group (es : List Element) (acc : List (String × Node))
    (k : String) (hne : es ≠ []) (htags : ∀ e ∈ es, e.tag = k)
    (hl : lookupD acc k = none) :
    etdChildren es acc = acc ++ [(k, groupVal es)] := by
  cases es with
  | nil => exact absurd rfl hne
  | cons e rest =>
    have hek : e.tag = k := htags e (List.mem_cons_self _ _)
    have hck : containsKey acc k = false := by simp [containsKey, hl]
    simp only [etdChildren]
    rw [hek]
    have hstep : addChild acc k (element_to_dict e) =
        acc ++ [(k, element_to_dict e)] := by
      unfold addChild
      rw [hl]
    rw [hstep]
    have hl1 : lookupD (acc ++ [(k, element_to_dict e)]) k =
        some (element_to_dict e) := by
      rw [lookupD_append, hl]
      simp [lookupD]
    cases rest with
    | nil => simp [etdChildren, groupVal]
    | cons e2 rest2 =>
      have he2k : e2.tag = k := htags e2 (by simp)
      simp only [etdChildren]
      rw [he2k]
      rw [addChild_found_nonlist _ _ _ _ hl1 (etd_not_list e)]
      have hl2 : lookupD (updateD (acc ++ [(k, element_to_dict e)]) k
          (.list [element_to_dict e, element_to_dict e2])) k =
          some (.list [element_to_dict e, element_to_dict e2]) := by
        apply lookupD_updateD_self
        simp [containsKey, hl1]
      rw [etdChildren_list_acc rest2 _ k _
        (fun x hx => htags x (by simp [hx])) hl2]
      rw [updateD_updateD, updateD_append_not_contains _ _ _ _ hck]
      simp [groupVal]

theorem etdChildren_groups (ps : List (String × Node)) :
    ∀ acc, ((ps.map Prod.fst).Nodup) →
      (∀ p ∈ ps, containsKey acc p.1 = false) →
      (∀ p ∈ ps, writeGroup p ≠ []) →
      etdChildren (groupsConcat ps) acc =
        acc ++ ps.map (fun p => (p.1, readGroup p)) := by
  induction ps with
  | nil => intro acc _ _ _; simp [groupsConcat, etdChildren]
  | cons p rest ih =>
    intro acc hnd hdis hne
    have hl : lookupD acc p.1 = none := by
      have := hdis p (List.mem_cons_self _ _)
      simp only [containsKey] at this
      exact Option.not_isSome_iff_eq_none.mp (by simp [this])
    simp only [groupsConcat]
    rw [etdChildren_append]
    rw [etdChildren_group (writeGroup p) acc p.1 (hne p (List.mem_cons_self _ _))
      (fun e he => writeGroup_tags p e he) hl]
    have hnd2 : (rest.map Prod.fst).Nodup := (List.nodup_cons.mp hnd).2
    have hkni : p.1 ∉ rest.map Prod.fst := (List.nodup_cons.mp hnd).1
    rw [ih (acc ++ [(p.1, groupVal (writeGroup p))]) hnd2 ?_
      (fun q hq => hne q (List.mem_cons_of_mem _ hq))]
    · simp [readGroup_eq]
    · intro q hq
      rw [containsKey_append]
      have h1 : containsKey acc q.1 = false := hdis q (List.mem_cons_of_mem _ hq)
      have h2 : q.1 ≠ p.1 := by
        intro he
        exact hkni (he ▸ List.mem_map.mpr ⟨q, hq, rfl⟩)
      have h3 : lookupD acc q.1 = none :=
        (lookupD_eq_none_iff acc q.1).mpr
          (fun hm => by simp [(containsKey_iff_mem acc q.1).mpr hm] at h1)
      simp [h1, h3, containsKey, lookupD, Ne.symm h2]

theorem lookupD_mem (l : List (String × Node)) (k : String) (v : Node)
    (h : lookupD l k = some v) : (k, v) ∈ l := by
  induction l with
  | nil => simp [lookupD] at h
  | cons p rest ih =>
    obtain ⟨k2, v2⟩ := p
    by_cases he : k2 = k
    · subst he
      simp [lookupD] at h
      simp [h]
    · simp only [lookupD, he, if_false] at h
      exact List.mem_cons_of_mem _ (ih h)

theorem size_val_lt (entries : List (String × Node)) (k : String) (x : Node)
    (h : (k, x) ∈ entries) : sizeOf x < sizeOf (Node.dict entries) := by
  have h1 := List.sizeOf_lt_of_mem h
  have h2 : sizeOf (k, x) = 1 + sizeOf k + sizeOf x := by simp
  have h3 : sizeOf (Node.dict entries) = 1 + sizeOf entries := by simp
  omega

theorem size_item_lt (entries : List (String × Node)) (k : String)
    (items : List Node) (x : Node) (h : (k, Node.list items) ∈ entries)
    (hx : x ∈ items) : sizeOf x < sizeOf (Node.dict entries) := by
  have h1 := List.sizeOf_lt_of_mem h
  have h2 := List.sizeOf_lt_of_mem hx
  have h3 : sizeOf (k, Node.list items) = 1 + sizeOf k + (1 + sizeOf items) := by
    simp
  have h4 : sizeOf (Node.dict entries) = 1 + sizeOf entries := by simp
  omega

theorem pyEq_str_refl (s : String) : pyEq (.str s) (.str s) = true := by
  simp [pyEq]

theorem readGroup_nonlist (k : String) (v : Node) (hv : v.isList = false) :
    readGroup (k, v) = element_to_dict (dict_to_element k v) := by
  have hw : writeGroup (k, v) = [dict_to_element k v] := by
    cases v <;> simp [Node.isList] at hv ⊢ <;> simp [writeGroup]
  rw [readGroup_eq, hw]
  rfl

theorem readGroup_list (k : String) (items : List Node)
    (hlen : 2 ≤ items.length) :
    readGroup (k, Node.list items) =
      .list (items.map (fun it => element_to_dict (dict_to_element k it))) := by
  have hw : writeGroup (k, Node.list items) = items.map (dict_to_element k) := by
    simp [writeGroup, dteList_eq_map]
  rw [readGroup_eq, hw]
  cases items with
  | nil => simp at hlen
  | cons i1 rest =>
    cases rest with
    | nil => simp at hlen
    | cons i2 rest2 =>
      simp [groupVal, List.map_map]

theorem groupsConcat_eq_nil (ps : List (String × Node))
    (hne : ∀ p ∈ ps, writeGroup p ≠ []) (h : groupsConcat ps = []) :
    ps = [] := by
  cases ps with
  | nil => rfl
  | cons p rest =>
    rw [groupsConcat] at h
    rw [List.append_eq_nil] at h
    exact absurd h.1 (hne p (List.mem_cons_self _ _))

theorem containsKey_attrs_false (l : List (String × Node)) (k : String)
    (hall : ∀ p ∈ l, isAttrKey p.1 = true) (hk : isAttrKey k = false) :
    containsKey l k = false := by
  rw [show containsKey l k = false ↔ ¬(containsKey l k = true) by simp]
  intro hc
  obtain ⟨k2, hmem⟩ := List.mem_map.mp ((containsKey_iff_mem l k).mp hc)
  have := hall k2 hmem.1
  rw [hmem.2] at this
  rw [this] at hk
  exact absurd hk (by simp)

theorem isStr_exists (v : Node) (h : v.isStr = true) : ∃ s, v = Node.str s := by
  cases v <;> first
    | exact ⟨_, rfl⟩
    | simp [Node.isStr] at h

theorem goodEntry_attr (k : String) (v : Node) (ha : isAttrKey k = true)
    (h : goodEntry (k, v) = true) : ∃ s, v = Node.str s := by
  rw [goodEntry.eq_def] at h
  simp only [ha, if_pos] at h
  exact isStr_exists v (by simpa using h)

theorem goodEntry_text (v : Node) (h : goodEntry ("#text", v) = true) :
    ∃ s, v = Node.str s ∧ pyStrip s = s ∧ s ≠ "" := by
  rw [goodEntry.eq_def] at h
  have ha : isAttrKey "#text" = false := by decide
  simp only [ha, Bool.false_eq_true, if_false, if_pos rfl] at h
  cases v with
  | str s =>
    simp only [if_true, Bool.and_eq_true, decide_eq_true_eq] at h
    exact ⟨s, rfl, h.1, h.2⟩
  | int n => simp at h
  | bool b => simp at h
  | null => simp at h
  | list l => simp at h
  | dict d => simp at h

theorem goodEntry_child (k : String) (v : Node) (ha : isAttrKey k = false)
    (hk : k ≠ "#text") (h : goodEntry (k, v) = true) :
    (∃ items, v = Node.list items ∧ 2 ≤ items.length ∧ goodValL items = true) ∨
    (v.isList = false ∧ goodVal v = true) := by
  rw [goodEntry.eq_def] at h
  simp only [ha, Bool.false_eq_true, if_false, hk, if_neg hk] at h
  cases v with
  | list items =>
    simp only [Bool.and_eq_true, decide_eq_true_eq] at h
    exact Or.inl ⟨items, rfl, h.1, h.2⟩
  | str s => exact Or.inr ⟨rfl, h⟩
  | int n => exact Or.inr ⟨rfl, h⟩
  | bool b => exact Or.inr ⟨rfl, h⟩
  | null => exact Or.inr ⟨rfl, h⟩
  | dict d => exact Or.inr ⟨rfl, h⟩

theorem result0_eq (entries : List (String × Node))
    (hge : goodEntries entries = true) :
    (attrsOf entries).map (fun p => (mkAttrKey p.1, Node.str p.2)) =
      entries.filter (fun p => isAttrKey p.1) := by
  induction entries with
  | nil => simp [attrsOf]
  | cons p rest ih =>
    obtain ⟨k, v⟩ := p
    rw [goodEntries] at hge
    simp only [Bool.and_eq_true] at hge
    by_cases ha : isAttrKey k
    · obtain ⟨s, hs⟩ := goodEntry_attr k v ha hge.1
      subst hs
      simp [attrsOf, List.filter_cons, ha, ih hge.2, mkAttrKey_attrName k ha,
        pyStr]
    · simp [attrsOf, List.filter_cons, ha, ih hge.2]

theorem childEntryB_spec (p : String × Node) (h : childEntryB p = true) :
    isAttrKey p.1 = false ∧ p.1 ≠ "#text" := by
  simp only [childEntryB, Bool.and_eq_true, Bool.not_eq_true', bne_iff_ne] at h
  exact h

theorem writeGroup_ne_nil (entries : List (String × Node))
    (hge : goodEntries entries = true) (p : String × Node)
    (hp : p ∈ entries.filter childEntryB) : writeGroup p ≠ [] := by
  have hb := childEntryB_spec p (List.of_mem_filter hp)
  have hpe := List.mem_of_mem_filter hp
  obtain ⟨k, v⟩ := p
  rcases goodEntry_child k v hb.1 hb.2 (goodEntries_mem _ hge _ hpe) with
    ⟨items, hv, hlen, _⟩ | ⟨hnl, _⟩
  · subst hv
    rw [show writeGroup (k, Node.list items) = items.map (dict_to_element k)
      from by simp [writeGroup, dteList_eq_map]]
    intro hcontra
    rw [List.map_eq_nil] at hcontra
    subst hcontra
    simp at hlen
  · cases v <;> simp [writeGroup, Node.isList] at hnl ⊢

theorem ps_keys_nodup (entries : List (String × Node))
    (hnd : (entries.map Prod.fst).Nodup) :
    ((entries.filter childEntryB).map Prod.fst).Nodup :=
  List.Nodup.sublist (List.Sublist.map Prod.fst (List.filter_sublist entries)) hnd

/-- The mapping `_element_to_dict` rebuilds from a written element:
the attribute entries verbatim, then the `#text` entry, then one entry
per non-reserved source entry. -/
theorem etdCore_write (entries : List (String × Node)) (tag : String)
    (hnd : (entries.map Prod.fst).Nodup) (hge : goodEntries entries = true)
    (tx : Option String)
    (htx : match tx with
           | some s => pyStrip s = s ∧ s ≠ ""
           | none => True) :
    etdCore (Element.mk tag (attrsOf entries) tx (childrenOf entries)) =
      entries.filter (fun p => isAttrKey p.1) ++
        (match tx with
         | some s => [("#text", Node.str s)]
         | none => []) ++
        (entries.filter childEntryB).map (fun p => (p.1, readGroup p)) := by
  have hchildren : etdChildren (childrenOf entries) [] =
      (entries.filter childEntryB).map (fun p => (p.1, readGroup p)) := by
    rw [childrenOf_eq]
    rw [etdChildren_groups _ [] (ps_keys_nodup entries hnd)
      (fun p _ => by simp [containsKey, lookupD])
      (writeGroup_ne_nil entries hge)]
    simp
  have hkeys2 : (((entries.filter childEntryB).map
      (fun p => (p.1, readGroup p))).map Prod.fst).Nodup := by
    rw [List.map_map]
    exact ps_keys_nodup entries hnd
  have hdisj : ∀ (tp : List (String × Node)),
      (∀ r ∈ tp, r.1 = "#text") →
      ∀ q ∈ (entries.filter childEntryB).map (fun p => (p.1, readGroup p)),
      containsKey (entries.filter (fun p => isAttrKey p.1) ++ tp) q.1 = false := by
    intro tp htp q hq
    obtain ⟨p, hp, hpq⟩ := List.mem_map.mp hq
    have hb := childEntryB_spec p (List.of_mem_filter hp)
    rw [containsKey_append]
    have h1 : containsKey (entries.filter (fun p => isAttrKey p.1)) q.1 = false := by
      apply containsKey_attrs_false
      · intro r hr
        simpa using List.of_mem_filter hr
      · rw [← hpq]
        exact hb.1
    have h2 : containsKey tp q.1 = false := by
      by_contra hc
      rw [Bool.not_eq_false] at hc
      obtain ⟨r, hr, hrq⟩ := List.mem_map.mp ((containsKey_iff_mem tp q.1).mp hc)
      have hrt := htp r hr
      have hq1 : q.1 = p.1 := (congrArg Prod.fst hpq).symm
      rw [hrq, hq1] at hrt
      exact hb.2 hrt
    simp [h1, h2]
  cases tx with
  | none =>
    simp only [etdCore, Element.attrib, Element.text, Element.children]
    rw [hchildren, result0_eq entries hge]
    rw [dictUpdate_disjoint _ _ hkeys2
      (by have h := hdisj [] (by simp); simpa using h)]
    simp
  | some s =>
    obtain ⟨hs1, hs2⟩ := htx
    simp only [etdCore, Element.attrib, Element.text, Element.children, hs1,
      if_neg hs2]
    rw [hchildren, result0_eq entries hge]
    rw [dictUpdate_disjoint _ _ hkeys2 (hdisj [("#text", Node.str s)] (by simp))]

theorem pyEq_list (a b : List Node) :
    pyEq (.list a) (.list b) = pyEqL a b := by
  rw [pyEq.eq_def]

theorem pyEq_dict (a b : List (String × Node)) :
    pyEq (.dict a) (.dict b) = (decide (a.length = b.length) && pyEqD a b) := by
  rw [pyEq.eq_def]

theorem pyEqD_reconstruction (entries : List (String × Node))
    (hnd : (entries.map Prod.fst).Nodup) (hge : goodEntries entries = true)
    (tp : List (String × Node))
    (htp : ∀ r ∈ tp, ∃ w, lookupD entries r.1 = some w ∧ pyEq r.2 w = true)
    (IH : ∀ x, sizeOf x < sizeOf (Node.dict entries) → goodVal x = true →
          ∀ tg, pyEq (element_to_dict (dict_to_element tg x)) x = true) :
    pyEqD (entries.filter (fun p => isAttrKey p.1) ++ tp ++
      (entries.filter childEntryB).map (fun p => (p.1, readGroup p)))
      entries = true := by
  rw [pyEqD_append, pyEqD_append]
  have hA : pyEqD (entries.filter (fun p => isAttrKey p.1)) entries = true := by
    apply pyEqD_of_forall
    intro p hp
    have ha : isAttrKey p.1 = true := by simpa using List.of_mem_filter hp
    have hpe := List.mem_of_mem_filter hp
    obtain ⟨k, v⟩ := p
    obtain ⟨s, hs⟩ := goodEntry_attr k v ha (goodEntries_mem _ hge _ hpe)
    subst hs
    exact ⟨Node.str s, lookupD_of_mem_nodup entries hnd k _ hpe, pyEq_str_refl s⟩
  have hT : pyEqD tp entries = true := pyEqD_of_forall _ _ htp
  have hC : pyEqD ((entries.filter childEntryB).map
      (fun p => (p.1, readGroup p))) entries = true := by
    apply pyEqD_of_forall
    intro q hq
    obtain ⟨p, hp, hpq⟩ := List.mem_map.mp hq
    have hb := childEntryB_spec p (List.of_mem_filter hp)
    have hpe := List.mem_of_mem_filter hp
    obtain ⟨k, v⟩ := p
    subst hpq
    refine ⟨v, lookupD_of_mem_nodup entries hnd k v hpe, ?_⟩
    simp only
    rcases goodEntry_child k v hb.1 hb.2 (goodEntries_mem _ hge _ hpe) with
      ⟨items, hv, hlen, hgl⟩ | ⟨hnl, hgv⟩
    · subst hv
      rw [readGroup_list k items hlen, pyEq_list]
      apply pyEqL_of_map
      intro x hx
      exact IH x (size_item_lt entries k items x hpe hx)
        (goodValL_mem items hgl x hx) k
    · rw [readGroup_nonlist k v hnl]
      exact IH v (size_val_lt entries k v hpe) hgv k
  simp [hA, hT, hC]

theorem dict_roundtrip (entries : List (String × Node)) (tag : String)
    (hgood : goodVal (Node.dict entries) = true)
    (IH : ∀ x, sizeOf x < sizeOf (Node.dict entries) → goodVal x = true →
          ∀ tg, pyEq (element_to_dict (dict_to_element tg x)) x = true) :
    pyEq (element_to_dict (dict_to_element tag (Node.dict entries)))
      (Node.dict entries) = true := by
  rw [goodVal.eq_def] at hgood
  simp only [Bool.and_eq_true, Bool.not_eq_true', decide_eq_true_eq] at hgood
  obtain ⟨⟨⟨hemp, hnd⟩, hge⟩, hsingle⟩ := hgood
  have hENE : entries ≠ [] := by
    cases entries
    · simp at hemp
    · simp
  have hwrite : dict_to_element tag (Node.dict entries) =
      Element.mk tag (attrsOf entries)
        (match textOf entries with
         | some s => if s = "" then none else some s
         | none => none)
        (childrenOf entries) := by
    rw [dict_to_element.eq_def]
    simp [dtePairs_eq]
  have hplen := partition_length entries hnd
  cases htx : lookupD entries "#text" with
  | none =>
    have hTO : textOf entries = none := by
      rw [textOf_eq_lookup entries hnd, htx]
      rfl
    have hTF : (match textOf entries with
         | some s => if s = "" then none else some s
         | none => none) = (none : Option String) := by rw [hTO]
    rw [hTO] at hplen
    simp only at hplen
    rw [hwrite, hTF, element_to_dict_eq,
      etdCore_write entries tag hnd hge none trivial]
    split
    · rename_i s' heq hc2 ha2
      simp at heq
    · by_cases hone : entries.length = 1
      · obtain ⟨p, hp⟩ := List.length_eq_one.mp hone
        subst hp
        obtain ⟨k, v⟩ := p
        simp only at hsingle
        have hkt : k ≠ "#text" := by
          intro he
          subst he
          simp [lookupD] at htx
        by_cases hak : isAttrKey k
        · obtain ⟨s, hs⟩ := goodEntry_attr k v hak
            (goodEntries_mem _ hge _ (by simp))
          subst hs
          have hFA : [(k, Node.str s)].filter (fun p => isAttrKey p.1) =
              [(k, Node.str s)] := by simp [List.filter_cons, hak]
          have hCP : [(k, Node.str s)].filter childEntryB = [] := by
            simp [List.filter_cons, childEntryB, hak]
          rw [hFA, hCP]
          simp only [List.map_nil, List.append_nil]
          rw [if_neg (by simp [hak])]
          rw [pyEq_dict]
          have : pyEqD [(k, Node.str s)] [(k, Node.str s)] = true := by
            apply pyEqD_of_forall
            intro r hr
            simp only [List.mem_singleton] at hr
            subst hr
            exact ⟨Node.str s, by simp [lookupD], pyEq_str_refl s⟩
          simp [this]
        · have hvl : v.isList = true := by
            rcases Bool.or_eq_true .. ▸ hsingle with h | h
            · exact absurd h hak
            · exact (Bool.and_eq_true .. ▸ h).2
          cases v with
          | str s2 => simp [Node.isList] at hvl
          | int n => simp [Node.isList] at hvl
          | bool b => simp [Node.isList] at hvl
          | null => simp [Node.isList] at hvl
          | dict d => simp [Node.isList] at hvl
          | list items =>
            rcases goodEntry_child k (Node.list items) (by simp [hak]) hkt
              (goodEntries_mem _ hge _ (by simp)) with
              ⟨items2, hv2, hlen2, hgl2⟩ | ⟨hnl2, _⟩
            swap
            · simp [Node.isList] at hnl2
            have hit : items2 = items := by
              have h5 := hv2
              simp only [Node.list.injEq] at h5
              exact h5.symm
            rw [hit] at hlen2 hgl2
            have hFA : [(k, Node.list items)].filter (fun p => isAttrKey p.1) =
                [] := by simp [List.filter_cons, hak]
            have hcb : childEntryB (k, Node.list items) = true := by
              simp [childEntryB, hak, hkt]
            have hCP : [(k, Node.list items)].filter childEntryB =
                [(k, Node.list items)] := by simp [List.filter_cons, hcb]
            rw [hFA, hCP]
            simp only [List.map_cons, List.map_nil, List.nil_append,
              List.append_nil]
            rw [readGroup_list k items hlen2]
            rw [if_neg (by simp [Node.isList])]
            rw [pyEq_dict]
            have hpd1 : pyEqD [(k, Node.list (items.map
                (fun it => element_to_dict (dict_to_element k it))))]
                [(k, Node.list items)] = true := by
              apply pyEqD_of_forall
              intro r hr
              simp only [List.mem_singleton] at hr
              subst hr
              refine ⟨Node.list items, by simp [lookupD], ?_⟩
              simp only
              rw [pyEq_list]
              apply pyEqL_of_map
              intro x hx
              exact IH x (size_item_lt [(k, Node.list items)] k items x
                (by simp) hx) (goodValL_mem items hgl2 x hx) k
            simp [hpd1]
      · have hlen2 : 2 ≤ entries.length := by
          have : entries.length ≠ 0 := by
            intro he
            exact hENE (List.length_eq_zero.mp he)
          omega
        have hRlen : (entries.filter (fun p => isAttrKey p.1) ++ ([] : List (String × Node)) ++
            (entries.filter childEntryB).map (fun p => (p.1, readGroup p))).length =
            entries.length := by
          simp only [List.length_append, List.length_nil, List.length_map]
          omega
        cases hsh : entries.filter (fun p => isAttrKey p.1) ++ ([] : List (String × Node)) ++
            (entries.filter childEntryB).map (fun p => (p.1, readGroup p)) with
        | nil =>
          rw [hsh] at hRlen
          simp at hRlen
          omega
        | cons q rest =>
          cases rest with
          | nil =>
            rw [hsh] at hRlen
            simp at hRlen
            omega
          | cons q2 rest2 =>
            rw [pyEq_dict]
            have hpd : pyEqD (q :: q2 :: rest2) entries = true := by
              rw [← hsh]
              exact pyEqD_reconstruction entries hnd hge [] (by simp) IH
            have hql : (q :: q2 :: rest2).length = entries.length := by
              rw [← hsh]
              exact hRlen
            simp [hpd, hql]
  | some v =>
    have hvm : ("#text", v) ∈ entries := lookupD_mem _ _ _ htx
    obtain ⟨s, hvs, hs1, hs2⟩ := goodEntry_text v (goodEntries_mem _ hge _ hvm)
    subst hvs
    have hTO : textOf entries = some s := by
      rw [textOf_eq_lookup entries hnd, htx]
      simp [pyStr]
    have hTF : (match textOf entries with
         | some s => if s = "" then none else some s
         | none => none) = some s := by
      rw [hTO]
      simp [hs2]
    rw [hTO] at hplen
    simp only at hplen
    rw [hwrite, hTF, element_to_dict_eq,
      etdCore_write entries tag hnd hge (some s) ⟨hs1, hs2⟩]
    split
    · rename_i s' heq hc2 ha2
      -- early text-only return: the whole mapping must be the single
      -- #text entry, which goodVal excludes
      exfalso
      have hFA0 : entries.filter (fun p => isAttrKey p.1) = [] := by
        have := attrsOf_eq entries
        rw [ha2] at this
        exact (List.map_eq_nil).mp this.symm
      have hps0 : entries.filter childEntryB = [] := by
        apply groupsConcat_eq_nil _ (writeGroup_ne_nil entries hge)
        rw [← childrenOf_eq, hc2]
      rw [hFA0, hps0] at hplen
      simp at hplen
      obtain ⟨p, hp⟩ := List.length_eq_one.mp hplen.symm
      rw [hp] at hvm
      simp only [List.mem_singleton] at hvm
      rw [hp, ← hvm] at hsingle
      simp [isAttrKey] at hsingle
    · have hRlen : (entries.filter (fun p => isAttrKey p.1) ++
          [("#text", Node.str s)] ++
          (entries.filter childEntryB).map (fun p => (p.1, readGroup p))).length =
          entries.length := by
        simp only [List.length_append, List.length_map, List.length_singleton]
        omega
      have htp : ∀ r ∈ [("#text", Node.str s)],
          ∃ w, lookupD entries r.1 = some w ∧ pyEq r.2 w = true := by
        intro r hr
        simp only [List.mem_singleton] at hr
        subst hr
        exact ⟨Node.str s, htx, pyEq_str_refl s⟩
      cases hsh : entries.filter (fun p => isAttrKey p.1) ++
          [("#text", Node.str s)] ++
          (entries.filter childEntryB).map (fun p => (p.1, readGroup p)) with
      | nil =>
        have := congrArg List.length hsh
        simp at this
      | cons q rest =>
        cases rest with
        | nil =>
          -- a single-entry reconstruction forces a single-entry source,
          -- which must be the #text entry, excluded by goodVal
          exfalso
          rw [hsh] at hRlen
          simp only [List.length_singleton] at hRlen
          obtain ⟨p, hp⟩ := List.length_eq_one.mp hRlen.symm
          rw [hp] at hvm
          simp only [List.mem_singleton] at hvm
          rw [hp, ← hvm] at hsingle
          simp [isAttrKey] at hsingle
        | cons q2 rest2 =>
          rw [pyEq_dict]
          have hpd : pyEqD (q :: q2 :: rest2) entries = true := by
            rw [← hsh]
            exact pyEqD_reconstruction entries hnd hge
              [("#text", Node.str s)] htp IH
          have hql : (q :: q2 :: rest2).length = entries.length := by
            rw [← hsh]
            exact hRlen
          simp [hpd, hql]

theorem roundtrip_aux (n : Nat) : ∀ v : Node, sizeOf v < n → goodVal v = true →
    ∀ tag, pyEq (element_to_dict (dict_to_element tag v)) v = true := by
  induction n with
  | zero =>
    intro v h
    omega
  | succ n ih =>
    intro v hlt hgood tag
    cases v with
    | str s =>
      rw [goodVal.eq_def] at hgood
      simp only [Bool.and_eq_true, decide_eq_true_eq] at hgood
      obtain ⟨h1, h2⟩ := hgood
      have hw : dict_to_element tag (Node.str s) =
          Element.mk tag [] (some s) [] := by
        rw [dict_to_element.eq_def]
        simp [pyStr]
      rw [hw]
      have hs3 : pyStrip s ≠ "" := by rw [h1]; exact h2
      have hr : element_to_dict (Element.mk tag [] (some s) []) =
          Node.str s := by
        rw [element_to_dict_eq]
        simp [h1, h2, hs3]
      rw [hr]
      exact pyEq_str_refl s
    | dict entries =>
      apply dict_roundtrip entries tag hgood
      intro x hx hgx tg
      apply ih x ?_ hgx tg
      omega
    | int m => rw [goodVal.eq_def] at hgood; simp at hgood
    | bool b => rw [goodVal.eq_def] at hgood; simp at hgood
    | null => rw [goodVal.eq_def] at hgood; simp at hgood
    | list l => rw [goodVal.eq_def] at hgood; simp at hgood

/-- C1 counterexample: the tree `T = dict [b ↦ "5"]` meets all of the
claim's stated conditions (only mappings and consistently stringified
scalars, no bare sequences, no collisions), yet
`elementToNode(nodeToElement("a", T))` is the collapsed scalar `"5"`,
not `T`: the collapse rule undoes the wrapper on re-load. -/
theorem claim_C1_counterexample :
    element_to_dict (dict_to_element "a" (Node.dict [("b", Node.str "5")])) =
      Node.str "5" ∧
    pyEq (element_to_dict (dict_to_element "a"
        (Node.dict [("b", Node.str "5")])))
      (Node.dict [("b", Node.str "5")]) = false := by
  have h : element_to_dict (dict_to_element "a"
      (Node.dict [("b", Node.str "5")])) = Node.str "5" := by
    simp [dict_to_element, dtePairs, element_to_dict, etdChildren, addChild,
      dictUpdate, lookupD, containsKey, pyStrip, isPySpace, pyStr, isAttrKey,
      Node.isList, attrName, Element.tag, Element.attrib, Element.text,
      Element.children]
  refine ⟨h, ?_⟩
  rw [h, pyEq.eq_def]

/-- C1 amended: the XML adapter round-trips
`elementToNode(nodeToElement(tag, T)) == T` (Python `==`) exactly for
the trees `goodVal` describes: only mappings and string scalars, where
scalars and `#text` values are nonempty and whitespace-trimmed,
attribute values are strings, every sequence under a key has at least
two elements, and every mapping is nonempty, has distinct keys, and, if
it has exactly one entry, that entry is an attribute or a sequence
under a non-`#text` key.  A singleton `#text` mapping becomes a bare
text element that re-loads as a plain string via the single-text-leaf
shortcut, and any other non-sequence singleton is unwrapped by the
collapse rule on re-load. -/
theorem claim_C1 (tag : String) (T : Node) (hT : goodVal T = true) :
    pyEq (element_to_dict (dict_to_element tag T)) T = true :=
  roundtrip_aux (sizeOf T + 1) T (by omega) hT tag

/-- Witness for C1 at a concrete two-entry mapping. -/
theorem claim_C1_witness :
    pyEq (element_to_dict (dict_to_element "r"
        (Node.dict [("x", Node.str "1"), ("y", Node.str "2")])))
      (Node.dict [("x", Node.str "1"), ("y", Node.str "2")]) = true :=
  claim_C1 "r" (Node.dict [("x", Node.str "1"), ("y", Node.str "2")])
    (by simp [goodVal, goodEntries, goodEntry, goodValL, isAttrKey, pyStrip,
      isPySpace, Node.isStr])
